import Mathlib

/-!
Shallow embedding of the node aggregation pipeline of `src/node/node_processor.py`
(class `NodeProcessor`), together with theorems settling the specification claims.

Python strings are modelled as `List Char`; bytes as `List Nat` (each < 256).
Library behaviour of `base64.b64decode` (CPython's non-strict `binascii.a2b_base64`),
`str.strip`, `str.split`, `bytes.decode('utf-8')` and the two compiled regular
expressions is embedded by dedicated executable functions, faithful on the inputs
the pipeline can produce (noted per definition where a Unicode corner is collapsed).
-/

/-- Python `str.isalnum` restricted to ASCII characters: `A-Z`, `a-z`, `0-9`.
For non-ASCII characters Python's `isalnum` may also return `True` (Unicode
alphanumerics), but everywhere this predicate is used (the base64 guard of
`_try_decode_base64`) the final result is insensitive to its value on
non-ASCII characters, because `base64.b64decode` raises `ValueError` on any
non-ASCII `str` input, so both attempts fail and `None` is returned anyway. -/
def asciiAlnum (c : Char) : Bool :=
  (65 ≤ c.toNat && c.toNat ≤ 90) || (97 ≤ c.toNat && c.toNat ≤ 122) ||
    (48 ≤ c.toNat && c.toNat ≤ 57)

/-- Python `str.isspace`, which also drives `str.strip()`: the complete list of
Unicode codepoints for which CPython 3.11 `chr(n).isspace()` is `True`. -/
def pyIsSpace (c : Char) : Bool :=
  let n := c.toNat
  (9 ≤ n && n ≤ 13) || (28 ≤ n && n ≤ 32) || n == 0x85 || n == 0xa0 || n == 0x1680 ||
    (0x2000 ≤ n && n ≤ 0x200a) || n == 0x2028 || n == 0x2029 || n == 0x202f ||
    n == 0x205f || n == 0x3000

/-- Python `s.strip()`: remove leading and trailing whitespace. -/
def pyStrip (s : List Char) : List Char :=
  ((s.dropWhile pyIsSpace).reverse.dropWhile pyIsSpace).reverse

/-- Python `s.split(sep)` for a single-character separator:
`''.split(c) = ['']`, `'a\nb'.split('\n') = ['a','b']`, etc. -/
def pySplitChar (sep : Char) : List Char → List (List Char)
  | [] => [[]]
  | c :: t =>
    if c = sep then [] :: pySplitChar sep t
    else
      match pySplitChar sep t with
      | [] => [[c]]
      | h :: r => (c :: h) :: r

/-- Python `sep.join(xs)` for a single-character separator. -/
def joinSep (sep : Char) : List (List Char) → List Char
  | [] => []
  | [x] => x
  | x :: y :: t => x ++ sep :: joinSep sep (y :: t)

/-- Python `s.startswith(pat)`: the first argument is the pattern. -/
def listStartsWith : List Char → List Char → Bool
  | [], _ => true
  | _ :: _, [] => false
  | p :: ps, c :: cs => p == c && listStartsWith ps cs

/-- Python `s.find(pat)` returning `some index` of the first occurrence of
`pat` in `s`, or `none` where Python returns `-1`. -/
def findSubstrPos (pat : List Char) : List Char → Option Nat
  | [] => if listStartsWith pat [] then some 0 else none
  | c :: t =>
    if listStartsWith pat (c :: t) then some 0
    else (findSubstrPos pat t).map (· + 1)

/-- Python `s.split(sep)[1]` for a non-empty separator: the segment strictly
between the first occurrence of `sep` and the following occurrence (or the end).
The code only evaluates this under a `node.startswith('<scheme>://')` test, so
`sep` is always present and Python's potential `IndexError` is unreachable;
the `none` branch returns `[]` as an arbitrary value for that dead case. -/
def splitPartOne (sep : List Char) (s : List Char) : List Char :=
  match findSubstrPos sep s with
  | none => []
  | some p =>
    let rest := s.drop (p + sep.length)
    match findSubstrPos sep rest with
    | none => rest
    | some q => rest.take q

/-- Python `s.split(c)[0]`: the segment before the first occurrence of `c`. -/
def takeUntilChar (c : Char) (s : List Char) : List Char :=
  s.takeWhile (fun d => d ≠ c)

/-- Value of a character in the standard base64 alphabet (`A-Z a-z 0-9 + /`). -/
def b64CharVal (c : Char) : Option Nat :=
  let n := c.toNat
  if 65 ≤ n && n ≤ 90 then some (n - 65)
  else if 97 ≤ n && n ≤ 122 then some (n - 71)
  else if 48 ≤ n && n ≤ 57 then some (n + 4)
  else if n == 43 then some 62
  else if n == 47 then some 63
  else none

/-- Character of a 6-bit value in the standard base64 alphabet. -/
def b64ValChar (v : Nat) : Char :=
  if v < 26 then Char.ofNat (65 + v)
  else if v < 52 then Char.ofNat (71 + v)
  else if v < 62 then Char.ofNat (v - 4)
  else if v == 62 then '+' else '/'

/-- CPython's `binascii.a2b_base64` with `strict_mode=False`, the decoder behind
`base64.b64decode`: characters outside the alphabet are skipped; `'='` at
quad position 0 or 1 is skipped; once padding completes a quad of length 2 or 3
(tracked by `pads`, which each data character resets), decoding stops
successfully, discarding the remainder; at end of input a quad position other
than 0 is an error (`Incorrect padding` / `number of data characters ...`).
Validated against CPython 3.11 on all the edge shapes used in this file.
Arguments: input, quad position, pending bit value, pad count; result bytes
or `none` for an exception. -/
def pyA2bBase64 : List Char → Nat → Nat → Nat → Option (List Nat)
  | [], quad, _, _ => if quad = 0 then some [] else none
  | c :: rest, quad, left, pads =>
    if c = '=' then
      if 2 ≤ quad then
        if 4 ≤ quad + pads + 1 then some []
        else pyA2bBase64 rest quad left (pads + 1)
      else pyA2bBase64 rest quad left pads
    else
      match b64CharVal c with
      | none => pyA2bBase64 rest quad left pads
      | some v =>
        match quad with
        | 0 => pyA2bBase64 rest 1 v 0
        | 1 => (pyA2bBase64 rest 2 (v % 16) 0).map (fun bs => (left * 4 + v / 16) :: bs)
        | 2 => (pyA2bBase64 rest 3 (v % 4) 0).map (fun bs => (left * 16 + v / 4) :: bs)
        | _ => (pyA2bBase64 rest 0 0 0).map (fun bs => (left * 64 + v) :: bs)

/-- Python `base64.b64decode(s)` on a `str` argument: non-ASCII input raises
`ValueError` (`_bytes_from_decode_data` encodes with the `ascii` codec),
otherwise the non-strict `a2b_base64` runs. `none` models any exception. -/
def pyB64decode (s : List Char) : Option (List Nat) :=
  if s.all (fun c => c.toNat < 128) then pyA2bBase64 s 0 0 0 else none

/-- Python `base64.b64encode`: standard alphabet, `'='`-padded. -/
def b64encodeBytes : List Nat → List Char
  | [] => []
  | [a] => [b64ValChar (a / 4), b64ValChar (a % 4 * 16), '=', '=']
  | [a, b] => [b64ValChar (a / 4), b64ValChar (a % 4 * 16 + b / 16),
      b64ValChar (b % 16 * 4), '=']
  | a :: b :: c :: rest =>
    b64ValChar (a / 4) :: b64ValChar (a % 4 * 16 + b / 16) ::
      b64ValChar (b % 16 * 4 + c / 64) :: b64ValChar (c % 64) :: b64encodeBytes rest

/-- UTF-8 encoding of one scalar value, as `str.encode('utf-8')` produces it. -/
def utf8EncodeChar (c : Char) : List Nat :=
  if c.toNat < 0x80 then [c.toNat]
  else if c.toNat < 0x800 then [0xc0 + c.toNat / 64, 0x80 + c.toNat % 64]
  else if c.toNat < 0x10000 then
    [0xe0 + c.toNat / 4096, 0x80 + c.toNat / 64 % 64, 0x80 + c.toNat % 64]
  else
    [0xf0 + c.toNat / 262144, 0x80 + c.toNat / 4096 % 64,
     0x80 + c.toNat / 64 % 64, 0x80 + c.toNat % 64]

/-- Python `text.encode('utf-8')`. -/
def utf8Encode (s : List Char) : List Nat :=
  (s.map utf8EncodeChar).flatten

/-- UTF-8 continuation byte test (`0x80..0xbf`). -/
def isContByte (b : Nat) : Bool :=
  0x80 ≤ b && b ≤ 0xbf

/-- Decoding of one UTF-8 sequence at a position: `b` is the lead byte, and
the continuation bytes are taken from the head of `rest`; the result is the
decoded scalar plus how many bytes of `rest` were consumed. The value-range
side conditions are equivalent to the per-position byte-range restrictions of
the UTF-8 specification (they reject overlong forms, surrogates and values
above `0x10ffff`). -/
def utf8DecodeOne (b : Nat) (rest : List Nat) : Option (Char × Nat) :=
  if b < 0x80 then some (Char.ofNat b, 0)
  else if 0xc2 ≤ b ∧ b ≤ 0xdf then
    match rest with
    | b2 :: _ =>
      if isContByte b2 then some (Char.ofNat ((b - 0xc0) * 64 + (b2 - 0x80)), 1) else none
    | [] => none
  else if 0xe0 ≤ b ∧ b ≤ 0xef then
    match rest with
    | b2 :: b3 :: _ =>
      let n := (b - 0xe0) * 4096 + (b2 - 0x80) * 64 + (b3 - 0x80)
      if isContByte b2 && isContByte b3 && decide (0x800 ≤ n) &&
          !(decide (0xd800 ≤ n) && decide (n ≤ 0xdfff)) then some (Char.ofNat n, 2)
      else none
    | _ => none
  else if 0xf0 ≤ b ∧ b ≤ 0xf4 then
    match rest with
    | b2 :: b3 :: b4 :: _ =>
      let n := (b - 0xf0) * 262144 + (b2 - 0x80) * 4096 + (b3 - 0x80) * 64 + (b4 - 0x80)
      if isContByte b2 && isContByte b3 && isContByte b4 &&
          decide (0x10000 ≤ n) && decide (n < 0x110000) then some (Char.ofNat n, 3)
      else none
    | _ => none
  else none

/-- Loop of the strict UTF-8 decoder, structurally recursive on a fuel
argument so that it stays kernel-computable: `fuel` only needs to be at least
the list length, since every step consumes at least one byte; the
`(_ :: _, 0)` arm is then unreachable. -/
def utf8DecodeStrictGo : List Nat → Nat → Option (List Char)
  | [], _ => some []
  | _ :: _, 0 => none
  | b :: rest, fuel + 1 =>
    match utf8DecodeOne b rest with
    | none => none
    | some (ch, k) => (utf8DecodeStrictGo (rest.drop k) fuel).map (fun t => ch :: t)

/-- Python `bytes.decode('utf-8')` with strict errors: `none` models
`UnicodeDecodeError`; every position must start a valid sequence. -/
def utf8DecodeStrict (l : List Nat) : Option (List Char) :=
  utf8DecodeStrictGo l l.length

/-- Loop of the ignoring UTF-8 decoder, fuelled like `utf8DecodeStrictGo`. -/
def utf8DecodeIgnoreGo : List Nat → Nat → List Char
  | [], _ => []
  | _ :: _, 0 => []
  | b :: rest, fuel + 1 =>
    match utf8DecodeOne b rest with
    | none => utf8DecodeIgnoreGo rest fuel
    | some (ch, k) => ch :: utf8DecodeIgnoreGo (rest.drop k) fuel

/-- Python `bytes.decode('utf-8', errors='ignore')`: decoded characters are
kept, undecodable bytes are dropped. Skipping one byte at an invalid position
yields the same output as CPython's maximal-subpart skipping, because every
byte after the lead of a skipped subpart is a continuation byte, which can
never begin a valid sequence and is therefore dropped either way. -/
def utf8DecodeIgnore (l : List Nat) : List Char :=
  utf8DecodeIgnoreGo l l.length

/-- ASCII decimal digit, the `\d` class of the compiled patterns. Python `\d`
also matches non-ASCII Unicode decimal digits; the theorems below never depend
on the class's value outside ASCII (both sides of each comparison use this
same embedded matcher). -/
def isAsciiDigit (c : Char) : Bool :=
  48 ≤ c.toNat && c.toNat ≤ 57

/-- Attempt of the pattern `@([^:]+):(\d+)` (compiled as `VLESS_PATTERN` and
`TROJAN_PATTERN`) at a position directly after a literal `'@'`: the greedy
`[^:]+` is forced to extend exactly to the first `':'`, which must then be
followed by at least one digit. -/
def vlessTryAt (rest : List Char) : Option (List Char × List Char) :=
  let g1 := rest.takeWhile (fun c => c ≠ ':')
  if g1.isEmpty then none
  else
    match rest.drop g1.length with
    | ':' :: tail =>
      let ds := tail.takeWhile isAsciiDigit
      if ds.isEmpty then none else some (g1, ds)
    | _ => none

/-- Python `VLESS_PATTERN.search` / `TROJAN_PATTERN.search` for
`@([^:]+):(\d+)`: leftmost match, scanning start positions left to right. -/
def vlessSearch : List Char → Option (List Char × List Char)
  | [] => none
  | c :: rest =>
    if c = '@' then
      match vlessTryAt rest with
      | some r => some r
      | none => vlessSearch rest
    else vlessSearch rest

/-- Literal `server":"` of `VMESS_PATTERN`. -/
def vmessLitServer : List Char :=
  "server\":\"".data

/-- Literal `port":` of `VMESS_PATTERN`. -/
def vmessLitPort : List Char :=
  "port\":".data

/-- Lazy tail `.*?port":(\d+)` of `VMESS_PATTERN` from a given position: the
shortest gap (whose characters `.` cannot be newlines) to an occurrence of
`port":` followed by at least one digit, with the digit run taken greedily. -/
def vmessScanPort : List Char → Option (List Char)
  | [] => none
  | c :: rest =>
    let ds := ((c :: rest).drop 6).takeWhile isAsciiDigit
    if listStartsWith vmessLitPort (c :: rest) && !ds.isEmpty then some ds
    else if c = '\n' then none
    else vmessScanPort rest

/-- Attempt of `VMESS_PATTERN` (`server":"([^"]+)".*?port":(\d+)`) directly
after an occurrence of the literal `server":"`. -/
def vmessTryAt (rest : List Char) : Option (List Char × List Char) :=
  let g1 := rest.takeWhile (fun c => c ≠ '"')
  if g1.isEmpty then none
  else
    match rest.drop g1.length with
    | '"' :: tail => (vmessScanPort tail).map (fun ds => (g1, ds))
    | _ => none

/-- Python `VMESS_PATTERN.search`: leftmost occurrence of `server":"` whose
continuation matches, scanning start positions left to right. -/
def vmessSearch : List Char → Option (List Char × List Char)
  | [] => none
  | c :: rest =>
    if listStartsWith vmessLitServer (c :: rest) then
      match vmessTryAt ((c :: rest).drop 9) with
      | some r => some r
      | none => vmessSearch rest
    else vmessSearch rest

/-- The twenty-one alternatives of `NODE_PATTERN`, in source order. -/
def nodeSchemes : List (List Char) :=
  ["vmess".data, "v2ray".data, "trojan".data, "trojan-go".data, "shadowsocks".data,
   "shadowsocksr".data, "vless".data, "ss".data, "ssr".data, "hysteria".data,
   "hysteria2".data, "tuic".data, "wireguard".data, "naiveproxy".data, "socks".data,
   "http".data, "https".data, "clash".data, "shadowsocks2".data, "vmess+tls".data,
   "vless+tls".data]

/-- Python `NODE_PATTERN.match(s)` as a Boolean: the anchored alternation of
literal schemes each followed by `://` matches exactly when some scheme of the
allow-list followed by `://` is a prefix of `s` (regex backtracking tries the
alternatives in order; each is a literal, so the disjunction is equivalent). -/
def matchesNodePattern (s : List Char) : Bool :=
  nodeSchemes.any (fun sch => listStartsWith (sch ++ "://".data) s)

/-- Guard character class of `_try_decode_base64`:
`c.isalnum() or c in '+/='`, on ASCII exactly the base64 alphabet plus `'='`. -/
def b64GuardChar (c : Char) : Bool :=
  asciiAlnum c || c == '+' || c == '/' || c == '='

/-- One decode attempt of `_try_decode_base64`:
`base64.b64decode(s).decode('utf-8')`, `none` for either exception. -/
def decodeAttempt (s : List Char) : Option (List Char) :=
  (pyB64decode s).bind utf8DecodeStrict

/-- Model of `NodeProcessor._try_decode_base64`: guard on the character class, then a
decode attempt as-is, then (on exception) an attempt with `'=' * (4 - len % 4)`
appended when `len % 4 != 0` (the `% 4` in the replicate count makes the second
attempt decode the unchanged string in the aligned case, exactly as the code
re-raises on it). On non-ASCII content this definition returns `none` at the
guard, while Python may pass its Unicode `isalnum` guard and then fail both
decode attempts with `ValueError`; the results agree pointwise. -/
def tryDecodeBase64 (content : List Char) : Option (List Char) :=
  if content.all b64GuardChar then
    match decodeAttempt content with
    | some t => some t
    | none => decodeAttempt (content ++ List.replicate ((4 - content.length % 4) % 4) '=')
  else none

/-- The effective text used for extraction in `_extract_nodes`:
`decoded_content` replaces `content` only when truthy (non-`None`, non-empty). -/
def decodeStage (content : List Char) : List Char :=
  match tryDecodeBase64 content with
  | some d => if d.isEmpty then content else d
  | none => content

/-- Line loop of `_extract_nodes`: strip each `'\n'`-separated line, keep the
non-empty ones matching `NODE_PATTERN`, in file order. -/
def extractLines (text : List Char) : List (List Char) :=
  ((pySplitChar '\n' text).map pyStrip).filter (fun l => !l.isEmpty && matchesNodePattern l)

/-- Model of `NodeProcessor._extract_nodes`: base64 stage, then the line loop. -/
def extractNodes (content : List Char) : List (List Char) :=
  extractLines (decodeStage content)

/-- Truncation chain `server_part = payload.split('#')[0].split('?')[0].split('/')[0]`
of `_extract_node_identifier`. -/
def truncPayload (s : List Char) : List Char :=
  takeUntilChar '/' (takeUntilChar '?' (takeUntilChar '#' s))

/-- Generic tail of `_extract_node_identifier`: `protocol + ':' + server_part[:100]`
when `node.find('://') > 0`, otherwise `node[:200]`. The code's bare `except`
branch (also `node[:200]`) is unreachable: no statement of the `try` body can
raise on a `str` argument (the only risky indexing, `split('://')[1]`, is
guarded by a `startswith('<scheme>://')` test). -/
def genericIdentifier (node : List Char) : List Char :=
  match findSubstrPos "://".data node with
  | some p =>
    if 0 < p then node.take p ++ ':' :: (truncPayload (node.drop (p + 3))).take 100
    else node.take 200
  | none => node.take 200

/-- Padding of the vmess branch: `data + '=' * (4 - len(data) % 4)` — note this
appends four `'='` when the length is already a multiple of 4. -/
def vmessPad (data : List Char) : List Char :=
  data ++ List.replicate (4 - data.length % 4) '='

/-- Vmess branch of `_extract_node_identifier`: base64-decode
`data + '=' * (4 - len(data) % 4)`, decode the bytes with `errors='ignore'`
(which cannot fail), search `VMESS_PATTERN`, and build
`f"vmess:{server}:{port}"`. `none` models the fall-through (inner `except`
on a decode error, or a failed pattern match). -/
def vmessRule (node : List Char) : Option (List Char) :=
  match pyB64decode (vmessPad (splitPartOne "://".data node)) with
  | some bytes =>
    (vmessSearch (utf8DecodeIgnore bytes)).map
      (fun pr => "vmess:".data ++ pr.1 ++ ':' :: pr.2)
  | none => none

/-- Vless branch of `_extract_node_identifier`: search `VLESS_PATTERN` in the
opaque payload and build `f"vless:{host}:{port}"`; `none` is a fall-through. -/
def vlessRule (node : List Char) : Option (List Char) :=
  (vlessSearch (splitPartOne "://".data node)).map
    (fun pr => "vless:".data ++ pr.1 ++ ':' :: pr.2)

/-- Trojan branch of `_extract_node_identifier`: `TROJAN_PATTERN` is compiled
from the same regex as `VLESS_PATTERN`. -/
def trojanRule (node : List Char) : Option (List Char) :=
  (vlessSearch (splitPartOne "://".data node)).map
    (fun pr => "trojan:".data ++ pr.1 ++ ':' :: pr.2)

/-- Model of `NodeProcessor._extract_node_identifier`: the protocol-specific branch is
selected by `startswith`, and any branch that falls through (failed decode or
failed pattern match) continues into the generic tail. -/
def extractNodeIdentifier (node : List Char) : List Char :=
  if listStartsWith "vmess://".data node then
    (vmessRule node).getD (genericIdentifier node)
  else if listStartsWith "vless://".data node then
    (vlessRule node).getD (genericIdentifier node)
  else if listStartsWith "trojan://".data node then
    (trojanRule node).getD (genericIdentifier node)
  else genericIdentifier node

/-- Model of `NodeProcessor._filter_invalid_nodes`: keep a node only when its identifier
is in neither the local `unique_ids` nor the instance cache `_node_id_cache`;
both sets receive exactly the kept identifiers, so a single membership
structure models their union. Returns the kept nodes and the updated cache. -/
def filterInvalidNodes : List (List Char) → List (List Char) → List (List Char) × List (List Char)
  | [], cache => ([], cache)
  | n :: rest, cache =>
    let nid := extractNodeIdentifier n
    if nid ∈ cache then filterInvalidNodes rest cache
    else
      let pr := filterInvalidNodes rest (nid :: cache)
      (n :: pr.1, pr.2)

/-- Sequential aggregation of per-source extracted batches through the shared
cache, in processing order, concatenating the per-batch kept nodes — the
`[node for result in ... for node in result]` collection of `merge_nodes`. -/
def aggregateBatches : List (List (List Char)) → List (List Char) → List (List Char) × List (List Char)
  | [], cache => ([], cache)
  | b :: bs, cache =>
    let pr := filterInvalidNodes b cache
    let rec' := aggregateBatches bs pr.2
    (pr.1 ++ rec'.1, rec'.2)

/-- Outcome of one fetch attempt of `fetch_nodes`: `exn` covers any raised
exception (transport error, or `raise_for_status` on an error status — both
handler arms of the code catch and log), `body` the response text otherwise. -/
inductive AttemptOutcome where
  | exn : AttemptOutcome
  | body : List Char → AttemptOutcome

/-- Body of one iteration of the retry loop of `fetch_nodes`: strip the text,
extract, filter; the attempt succeeds only when the filtered list is non-empty.
Returns the nodes on success plus the cache as mutated by the filter call. -/
def processAttempt (o : AttemptOutcome) (cache : List (List Char)) :
    Option (List (List Char)) × List (List Char) :=
  match o with
  | .exn => (none, cache)
  | .body content =>
    let c := pyStrip content
    if c.isEmpty then (none, cache)
    else
      let pr := filterInvalidNodes (extractNodes c) cache
      if pr.1.isEmpty then (none, pr.2) else (some pr.1, pr.2)

/-- Retry loop of `fetch_nodes`: `fuel` is the number of attempts still
allowed (`max_retry + 1 - retry_count`), `k` the number already made. Returns
the nodes, the total number of attempts performed, and the final cache. -/
def fetchNodesAux (attempts : Nat → AttemptOutcome) :
    Nat → Nat → List (List Char) → List (List Char) × Nat × List (List Char)
  | 0, k, cache => ([], k, cache)
  | fuel + 1, k, cache =>
    match processAttempt (attempts k) cache with
    | (some nodes, c') => (nodes, k + 1, c')
    | (none, c') => fetchNodesAux attempts fuel (k + 1) c'

/-- Model of `NodeProcessor.fetch_nodes` for a source whose successive attempt outcomes
are `attempts 0, attempts 1, ...`: the `while retry_count <= self.max_retry`
loop performs up to `maxRetry + 1` attempts. -/
def fetchNodes (attempts : Nat → AttemptOutcome) (maxRetry : Nat)
    (cache : List (List Char)) : List (List Char) × Nat × List (List Char) :=
  fetchNodesAux attempts (maxRetry + 1) 0 cache

/-- Artifact content of `generate_subscription_file`:
`base64.b64encode('\n'.join(nodes).encode('utf-8'))`. -/
def subscriptionArtifact (nodes : List (List Char)) : List Char :=
  b64encodeBytes (utf8Encode (joinSep '\n' nodes))

/-- Return value of `generate_subscription_file`: `None` for an empty node
list (after only a warning log), the artifact text otherwise. -/
def generateSubscriptionFile (nodes : List (List Char)) : Option (List Char) :=
  if nodes.isEmpty then none else some (subscriptionArtifact nodes)

/-- File-system writes performed by `generate_subscription_file`: none for an
empty node list (the function returns before any encoding or I/O), one full
overwrite of the output file with the artifact otherwise. -/
def generateSubscriptionWrites (nodes : List (List Char)) : List (List Char) :=
  if nodes.isEmpty then [] else [subscriptionArtifact nodes]

/-- Shared-cache execution of the concurrent path of `merge_nodes` at source
granularity: `order` is the order in which the worker threads' filter sections
hit the shared `_node_id_cache` (a completion schedule); each processed index
records its kept nodes. -/
def runSchedule (batches : List (List (List Char))) :
    List Nat → List (List Char) → List (Nat × List (List Char))
  | [], _ => []
  | i :: rest, cache =>
    let pr := filterInvalidNodes (batches.getD i []) cache
    (i, pr.1) :: runSchedule batches rest pr.2

/-- Concurrent path of `merge_nodes`:
`[node for result in executor.map(self.fetch_nodes, sources) for node in result]`.
`Executor.map` yields the per-source results in the order of the input
iterable, so the aggregate list concatenates the slots in source-index order,
whatever the completion schedule `order` was. -/
def mergeConcurrentModel (batches : List (List (List Char))) (order : List Nat)
    (cache : List (List Char)) : List (List Char) :=
  let slots := runSchedule batches order cache
  ((List.range batches.length).map
    (fun i => (((slots.find? (fun pr => pr.1 == i)).map Prod.snd).getD []))).flatten

/-- Modelled from the spec ("first-seen wins"): keep the first occurrence of
each key `f n` not already in `seen`, in order. Used as the specification-side
description the dedup theorems compare the code against. -/
def firstOccurrencesBy (f : List Char → List Char) (seen : List (List Char)) :
    List (List Char) → List (List Char)
  | [] => []
  | n :: rest =>
    if f n ∈ seen then firstOccurrencesBy f seen rest
    else n :: firstOccurrencesBy f (f n :: seen) rest

/-- Decode stage as claim C3 words it: if the text consists solely of base64
alphabet characters, try as-is then with `'='` padding to the next multiple of
4, and let any successfully decoded text (empty included) replace the input. -/
def specDecodeOriginalC3 (content : List Char) : List Char :=
  if content.all b64GuardChar then
    match decodeAttempt content with
    | some t => t
    | none =>
      match decodeAttempt (content ++ List.replicate ((4 - content.length % 4) % 4) '=') with
      | some t => t
      | none => content
  else content

/-- Decode stage as amended for C3: only a successfully decoded non-empty text
replaces the input (the code tests truthiness, under which the empty decoded
string leaves the original text in place). -/
def specDecodeAmendedC3 (content : List Char) : List Char :=
  if content.all b64GuardChar then
    match decodeAttempt content with
    | some t => if t.isEmpty then content else t
    | none =>
      match decodeAttempt (content ++ List.replicate ((4 - content.length % 4) % 4) '=') with
      | some t => if t.isEmpty then content else t
      | none => content
  else content

/-- Vmess identity rule as claim C5 words it: base64-decode the opaque payload
after padding it with `'='` to a multiple of 4 characters (no padding when the
length is already a multiple of 4), pattern-match server and port, fall back to
the generic identity on decode or match failure. -/
def specVmessOriginalC5 (node : List Char) : List Char :=
  match pyB64decode (splitPartOne "://".data node
      ++ List.replicate ((4 - (splitPartOne "://".data node).length % 4) % 4) '=') with
  | some bytes =>
    match vmessSearch (utf8DecodeIgnore bytes) with
    | some (srv, prt) => "vmess:".data ++ srv ++ ':' :: prt
    | none => genericIdentifier node
  | none => genericIdentifier node

/-- Vmess identity rule as amended for C5: the payload is padded with exactly
`4 - len % 4` equal signs — four of them when the length is already a multiple
of 4, which the tolerant decoder ignores for clean payloads but which changes
the outcome for payloads containing non-alphabet characters. -/
def specVmessAmendedC5 (node : List Char) : List Char :=
  match pyB64decode (splitPartOne "://".data node
      ++ List.replicate (4 - (splitPartOne "://".data node).length % 4) '=') with
  | some bytes =>
    match vmessSearch (utf8DecodeIgnore bytes) with
    | some (srv, prt) => "vmess:".data ++ srv ++ ':' :: prt
    | none => genericIdentifier node
  | none => genericIdentifier node

/-- Generic fallback identity as claim C6 words it: the scheme name, a colon,
and the first 100 characters of the opaque payload truncated at the earliest
`'#'`, `'?'` or `'/'`; the scheme is the part before the first `://`. -/
def specGenericIdentityC6 (node : List Char) : List Char :=
  match findSubstrPos "://".data node with
  | some p =>
    node.take p ++ ':' ::
      ((node.drop (p + 3)).takeWhile (fun c => c ≠ '#' && c ≠ '?' && c ≠ '/')).take 100
  | none => node.take 200



theorem firstOcc_cons (f : List Char → List Char) (s : List (List Char)) (n : List Char)
    (rest : List (List Char)) :
    firstOccurrencesBy f s (n :: rest)
      = if f n ∈ s then firstOccurrencesBy f s rest
        else n :: firstOccurrencesBy f (f n :: s) rest := rfl

theorem filterInvalidNodes_cons (n : List Char) (rest cache : List (List Char)) :
    filterInvalidNodes (n :: rest) cache
      = if extractNodeIdentifier n ∈ cache then filterInvalidNodes rest cache
        else ((n :: (filterInvalidNodes rest (extractNodeIdentifier n :: cache)).1,
               (filterInvalidNodes rest (extractNodeIdentifier n :: cache)).2)) := rfl

theorem aggregateBatches_cons (b : List (List Char)) (bs : List (List (List Char)))
    (c : List (List Char)) :
    aggregateBatches (b :: bs) c
      = ((filterInvalidNodes b c).1 ++ (aggregateBatches bs (filterInvalidNodes b c).2).1,
         (aggregateBatches bs (filterInvalidNodes b c).2).2) := rfl

theorem filterInvalidNodes_fst (l cache : List (List Char)) :
    (filterInvalidNodes l cache).1 = firstOccurrencesBy extractNodeIdentifier cache l := by
  induction l generalizing cache with
  | nil => rfl
  | cons n rest ih =>
    rw [filterInvalidNodes_cons, firstOcc_cons]
    by_cases h : extractNodeIdentifier n ∈ cache
    · rw [if_pos h, if_pos h, ih]
    · rw [if_neg h, if_neg h]
      show n :: (filterInvalidNodes rest (extractNodeIdentifier n :: cache)).1 = _
      rw [ih]

theorem filterInvalidNodes_snd (l cache : List (List Char)) :
    (filterInvalidNodes l cache).2
      = ((filterInvalidNodes l cache).1.map extractNodeIdentifier).reverse ++ cache := by
  induction l generalizing cache with
  | nil => rfl
  | cons n rest ih =>
    rw [filterInvalidNodes_cons]
    by_cases h : extractNodeIdentifier n ∈ cache
    · rw [if_pos h, ih]
    · rw [if_neg h]
      show (filterInvalidNodes rest (extractNodeIdentifier n :: cache)).2 = _
      rw [ih]
      simp [List.append_assoc]

theorem firstOcc_congr (f : List Char → List Char) (s t l : List (List Char))
    (h : ∀ x, x ∈ s ↔ x ∈ t) :
    firstOccurrencesBy f s l = firstOccurrencesBy f t l := by
  induction l generalizing s t with
  | nil => rfl
  | cons n rest ih =>
    rw [firstOcc_cons, firstOcc_cons]
    by_cases hm : f n ∈ s
    · rw [if_pos hm, if_pos ((h _).1 hm), ih _ _ h]
    · rw [if_neg hm, if_neg (fun hc => hm ((h _).2 hc))]
      congr 1
      apply ih
      intro x
      simp only [List.mem_cons]
      rw [h x]

theorem firstOcc_append (f : List Char → List Char) (s : List (List Char))
    (l1 l2 : List (List Char)) :
    firstOccurrencesBy f s (l1 ++ l2)
      = firstOccurrencesBy f s l1
        ++ firstOccurrencesBy f (((firstOccurrencesBy f s l1).map f).reverse ++ s) l2 := by
  induction l1 generalizing s with
  | nil => simp [firstOccurrencesBy]
  | cons n rest ih =>
    by_cases hm : f n ∈ s
    · simp only [List.cons_append, firstOcc_cons, if_pos hm]
      exact ih s
    · simp only [List.cons_append, firstOcc_cons, if_neg hm]
      rw [ih (f n :: s)]
      simp [List.append_assoc]

theorem mem_firstOcc (f : List Char → List Char) (s l : List (List Char))
    (n : List Char) (h : n ∈ firstOccurrencesBy f s l) : n ∈ l := by
  induction l generalizing s with
  | nil => exact absurd h (List.not_mem_nil n)
  | cons m rest ih =>
    rw [firstOcc_cons] at h
    by_cases hm : f m ∈ s
    · rw [if_pos hm] at h
      exact List.mem_cons_of_mem _ (ih _ h)
    · rw [if_neg hm] at h
      rcases List.mem_cons.1 h with h | h
      · exact h ▸ List.mem_cons_self _ _
      · exact List.mem_cons_of_mem _ (ih _ h)

theorem firstOcc_map_nodup_notmem (f : List Char → List Char) (s l : List (List Char)) :
    ((firstOccurrencesBy f s l).map f).Nodup
      ∧ ∀ x ∈ (firstOccurrencesBy f s l).map f, x ∉ s := by
  induction l generalizing s with
  | nil => exact ⟨List.nodup_nil, by intro x hx; exact absurd hx (List.not_mem_nil x)⟩
  | cons n rest ih =>
    rw [firstOcc_cons]
    by_cases hm : f n ∈ s
    · rw [if_pos hm]
      exact ih s
    · rw [if_neg hm]
      rcases ih (f n :: s) with ⟨hnd, hnm⟩
      refine ⟨?_, ?_⟩
      · rw [List.map_cons, List.nodup_cons]
        exact ⟨fun hc => hnm _ hc (List.mem_cons_self _ _), hnd⟩
      · intro x hx
        rw [List.map_cons] at hx
        rcases List.mem_cons.1 hx with h | h
        · exact h ▸ hm
        · intro hs
          exact hnm x h (List.mem_cons_of_mem _ hs)

theorem firstOcc_complete (f : List Char → List Char) (s l : List (List Char)) :
    ∀ n ∈ l, f n ∈ s ∨ f n ∈ (firstOccurrencesBy f s l).map f := by
  induction l generalizing s with
  | nil => intro n hn; exact absurd hn (List.not_mem_nil n)
  | cons m rest ih =>
    intro n hn
    rw [firstOcc_cons]
    by_cases hm : f m ∈ s
    · rw [if_pos hm]
      rcases List.mem_cons.1 hn with h | h
      · exact Or.inl (h ▸ hm)
      · exact ih s n h
    · rw [if_neg hm]
      rcases List.mem_cons.1 hn with h | h
      · subst h
        exact Or.inr (List.mem_map_of_mem _ (List.mem_cons_self _ _))
      · rcases ih (f m :: s) n h with hc | hc
        · rcases List.mem_cons.1 hc with h1 | h1
          · refine Or.inr ?_
            rw [List.map_cons, h1]
            exact List.mem_cons_self _ _
          · exact Or.inl h1
        · refine Or.inr ?_
          rw [List.map_cons]
          exact List.mem_cons_of_mem _ hc

theorem aggregateBatches_fst (bs : List (List (List Char))) (c : List (List Char)) :
    (aggregateBatches bs c).1 = firstOccurrencesBy extractNodeIdentifier c bs.flatten := by
  induction bs generalizing c with
  | nil => rfl
  | cons b rest ih =>
    rw [aggregateBatches_cons]
    show (filterInvalidNodes b c).1 ++ (aggregateBatches rest (filterInvalidNodes b c).2).1 = _
    rw [List.flatten_cons, firstOcc_append, ih, filterInvalidNodes_snd,
      filterInvalidNodes_fst]

theorem aggregateBatches_snd (bs : List (List (List Char))) (c : List (List Char)) :
    (aggregateBatches bs c).2
      = ((aggregateBatches bs c).1.map extractNodeIdentifier).reverse ++ c := by
  induction bs generalizing c with
  | nil => rfl
  | cons b rest ih =>
    rw [aggregateBatches_cons]
    show (aggregateBatches rest (filterInvalidNodes b c).2).2 = _
    rw [ih, filterInvalidNodes_snd]
    simp [List.append_assoc]

theorem aggregateBatches_append (bs1 bs2 : List (List (List Char))) (c : List (List Char)) :
    aggregateBatches (bs1 ++ bs2) c
      = ((aggregateBatches bs1 c).1 ++ (aggregateBatches bs2 (aggregateBatches bs1 c).2).1,
         (aggregateBatches bs2 (aggregateBatches bs1 c).2).2) := by
  induction bs1 generalizing c with
  | nil => simp [aggregateBatches]
  | cons b rest ih =>
    simp only [List.cons_append, aggregateBatches_cons]
    rw [ih]
    simp [List.append_assoc]

/-- C1: fed through the per-source filter in processing order from an empty
cache, the aggregate result is exactly the first occurrence of each distinct
`NodeIdentity` (as computed by `_extract_node_identifier`) of the concatenated
input: its identities are pairwise distinct, every kept element is a string
present in the input, the kept representative is the first-seen one, and
(through the `firstOccurrencesBy` characterisation, whose seen-set carries all
identities kept in earlier batches) a link is kept only if its identity was
not seen in any prior filtered batch of the run. -/
theorem dedup_aggregate_firstSeen (batches : List (List (List Char))) :
    (aggregateBatches batches []).1
        = firstOccurrencesBy extractNodeIdentifier [] batches.flatten
      ∧ ((aggregateBatches batches []).1.map extractNodeIdentifier).Nodup
      ∧ (∀ n ∈ (aggregateBatches batches []).1, n ∈ batches.flatten)
      ∧ ∀ n ∈ batches.flatten,
          extractNodeIdentifier n
            ∈ (aggregateBatches batches []).1.map extractNodeIdentifier := by
  have h1 := aggregateBatches_fst batches []
  refine ⟨h1, ?_, ?_, ?_⟩
  · rw [h1]
    exact (firstOcc_map_nodup_notmem _ _ _).1
  · intro n hn
    rw [h1] at hn
    exact mem_firstOcc _ _ _ _ hn
  · intro n hn
    rw [h1]
    rcases firstOcc_complete extractNodeIdentifier [] batches.flatten n hn with h | h
    · exact absurd h (List.not_mem_nil _)
    · exact h

/-- C1 witness: on two concrete batches whose second repeats an identity of
the first, the theorem applies and the repeated identity is represented. -/
theorem dedup_aggregate_firstSeen_witness :
    extractNodeIdentifier "vless://y@1.2.3.4:443#r2".data
      ∈ (aggregateBatches
          [["vless://x@1.2.3.4:443#r1".data, "ss://h:1".data],
           ["vless://y@1.2.3.4:443#r2".data]] []).1.map extractNodeIdentifier :=
  (dedup_aggregate_firstSeen
    [["vless://x@1.2.3.4:443#r1".data, "ss://h:1".data],
     ["vless://y@1.2.3.4:443#r2".data]]).2.2.2
    "vless://y@1.2.3.4:443#r2".data (by decide)

/-- C10: the identity cache of a `NodeProcessor` instance grows monotonically
across successive filter-bearing calls and is never cleared; every call adds
the identities it keeps; and a node whose identity was kept by any earlier
call on the instance is never returned by a later call continuing from the
instance cache. -/
theorem cache_instance_lifetime (batches : List (List (List Char))) :
    (∀ i j, i ≤ j → ∀ x ∈ (aggregateBatches (batches.take i) []).2,
        x ∈ (aggregateBatches (batches.take j) []).2)
      ∧ (∀ n ∈ (aggregateBatches batches []).1,
          extractNodeIdentifier n ∈ (aggregateBatches batches []).2)
      ∧ ∀ later n m, n ∈ (aggregateBatches batches []).1 →
          m ∈ (aggregateBatches later (aggregateBatches batches []).2).1 →
          extractNodeIdentifier m ≠ extractNodeIdentifier n := by
  have hadd : ∀ (bs : List (List (List Char))) (c : List (List Char)),
      ∀ n ∈ (aggregateBatches bs c).1,
        extractNodeIdentifier n ∈ (aggregateBatches bs c).2 := by
    intro bs c n hn
    rw [aggregateBatches_snd]
    exact List.mem_append_left _ (List.mem_reverse.2 (List.mem_map_of_mem _ hn))
  refine ⟨?_, hadd batches [], ?_⟩
  · intro i j hij x hx
    have hsplit : batches.take j = batches.take i ++ (batches.take j).drop i := by
      conv_lhs => rw [← List.take_append_drop i (batches.take j)]
      rw [List.take_take, Nat.min_eq_left hij]
    rw [hsplit, aggregateBatches_append]
    show x ∈ (aggregateBatches _ (aggregateBatches (batches.take i) []).2).2
    rw [aggregateBatches_snd]
    exact List.mem_append_right _ hx
  · intro later n m hn hm heq
    have h1 : extractNodeIdentifier m ∉ (aggregateBatches batches []).2 := by
      have h2 := aggregateBatches_fst later (aggregateBatches batches []).2
      rw [h2] at hm
      exact (firstOcc_map_nodup_notmem extractNodeIdentifier _ _).2
        (extractNodeIdentifier m) (List.mem_map_of_mem _ hm)
    exact h1 (heq ▸ hadd batches [] n hn)

/-- C10 witness: with one batch kept, a later call on the same instance cache
never returns a second node of the already-kept identity; here the identity of
`trojan://u@h:9` differs from the kept `ss:h:1` cache entry, and monotonicity
and cache insertion are instantiated at the same concrete batches. -/
theorem cache_instance_lifetime_witness :
    (extractNodeIdentifier "ss://h:1".data
        ∈ (aggregateBatches ([["ss://h:1".data]].take 1) []).2)
      ∧ (extractNodeIdentifier "ss://h:1".data
        ∈ (aggregateBatches [["ss://h:1".data]] []).2)
      ∧ extractNodeIdentifier "trojan://u@h:9".data
          ≠ extractNodeIdentifier "ss://h:1".data := by
  have h := cache_instance_lifetime [["ss://h:1".data]]
  refine ⟨?_, ?_, ?_⟩
  · exact h.1 1 1 (by decide) _ (by decide)
  · exact h.2.1 "ss://h:1".data (by decide)
  · exact h.2.2 [["trojan://u@h:9".data]] "ss://h:1".data "trojan://u@h:9".data
      (by decide) (by decide)

theorem processAttempt_body_eq (content : List Char) (cache : List (List Char)) :
    processAttempt (AttemptOutcome.body content) cache
      = if (pyStrip content).isEmpty then (none, cache)
        else if (filterInvalidNodes (extractNodes (pyStrip content)) cache).1.isEmpty then
          (none, (filterInvalidNodes (extractNodes (pyStrip content)) cache).2)
        else (some (filterInvalidNodes (extractNodes (pyStrip content)) cache).1,
              (filterInvalidNodes (extractNodes (pyStrip content)) cache).2) := rfl

theorem processAttempt_none_cache (o : AttemptOutcome) (cache : List (List Char))
    (h : (processAttempt o cache).1 = none) : (processAttempt o cache).2 = cache := by
  match o with
  | AttemptOutcome.exn => rfl
  | AttemptOutcome.body content =>
    rw [processAttempt_body_eq] at h ⊢
    by_cases hc : (pyStrip content).isEmpty
    · rw [if_pos hc]
    · rw [if_neg hc] at h ⊢
      by_cases hv : (filterInvalidNodes (extractNodes (pyStrip content)) cache).1.isEmpty
      · rw [if_pos hv]
        show (filterInvalidNodes (extractNodes (pyStrip content)) cache).2 = cache
        rw [filterInvalidNodes_snd, List.isEmpty_iff.1 hv]
        rfl
      · rw [if_neg hv] at h
        exact absurd h (by simp)

theorem fetchNodesAux_allFail (attempts : Nat → AttemptOutcome)
    (hfail : ∀ k c, (processAttempt (attempts k) c).1 = none) :
    ∀ fuel k cache, fetchNodesAux attempts fuel k cache = ([], k + fuel, cache) := by
  intro fuel
  induction fuel with
  | zero => intro k cache; rfl
  | succ n ih =>
    intro k cache
    show (match processAttempt (attempts k) cache with
      | (some nodes, c') => (nodes, k + 1, c')
      | (none, c') => fetchNodesAux attempts n (k + 1) c') = _
    have h1 := hfail k cache
    have h2 := processAttempt_none_cache (attempts k) cache h1
    have h3 : processAttempt (attempts k) cache = (none, cache) := by
      rw [Prod.ext_iff]
      exact ⟨h1, h2⟩
    rw [h3]
    show fetchNodesAux attempts n (k + 1) cache = ([], k + (n + 1), cache)
    rw [ih (k + 1) cache]
    have : k + 1 + n = k + (n + 1) := by omega
    rw [this]

/-- C2: for a source whose every attempt fails — a raised exception (transport
error or error status raised by `raise_for_status`), an empty stripped body,
or an extraction that yields no valid nodes — `fetch_nodes` performs exactly
`maxRetry + 1` attempts, returns an empty sequence with the cache unchanged,
and (third conjunct) a raised exception is absorbed into a failed attempt
rather than propagated: the attempt handler maps it to a normal `none` result,
so the total function `fetchNodes` returns on every outcome stream. -/
theorem fetch_retry_bound (attempts : Nat → AttemptOutcome) (maxRetry : Nat)
    (cache : List (List Char))
    (hfail : ∀ k c, (processAttempt (attempts k) c).1 = none) :
    fetchNodes attempts maxRetry cache = ([], maxRetry + 1, cache)
      ∧ ∀ c, processAttempt AttemptOutcome.exn c = (none, c) := by
  constructor
  · show fetchNodesAux attempts (maxRetry + 1) 0 cache = _
    rw [fetchNodesAux_allFail attempts hfail (maxRetry + 1) 0 cache]
    rw [Nat.zero_add]
  · intro c
    rfl

/-- C2 witness: a source raising on every attempt, with `max_retry = 2`,
yields three attempts and an empty result. -/
theorem fetch_retry_bound_witness :
    fetchNodes (fun _ => AttemptOutcome.exn) 2 [] = ([], 3, [])
      ∧ ∀ c, processAttempt AttemptOutcome.exn c = (none, c) :=
  fetch_retry_bound (fun _ => AttemptOutcome.exn) 2 [] (fun _ _ => rfl)

/-- C8: for an empty node list `generate_subscription_file` returns `None`
before any encoding, and performs no file-system write; the enclosing
`try/except` means no exception propagates in any case, and the embedded
functions are total. -/
theorem generate_empty_no_write :
    generateSubscriptionFile [] = none ∧ generateSubscriptionWrites [] = [] :=
  ⟨rfl, rfl⟩

/-- C3 counterexample: on the input `"="` — which consists solely of base64
alphabet characters and whose first decode attempt succeeds with the valid
(empty) text — the code keeps the original text, because `_extract_nodes`
tests the decoded value for truthiness and the empty string is falsy, while
the claim as stated would have the decoded text replace the input. -/
theorem decode_stage_truthiness_counterexample :
    decodeStage "=".data = "=".data
      ∧ specDecodeOriginalC3 "=".data = []
      ∧ decodeStage "=".data ≠ specDecodeOriginalC3 "=".data := by decide

/-- C3 amended: base64 decoding is attempted exactly on text consisting solely
of base64 alphabet characters — as-is first, then with `'='` padding to the
next multiple of 4 — and the decoded text replaces the input for extraction
exactly when it is valid and non-empty; every other input is used unchanged. -/
theorem decode_stage_base64_heuristic (content : List Char) :
    decodeStage content = specDecodeAmendedC3 content := by
  unfold decodeStage tryDecodeBase64 specDecodeAmendedC3
  by_cases hg : content.all b64GuardChar
  · rw [if_pos hg, if_pos hg]
    cases h1 : decodeAttempt content with
    | some t => rfl
    | none =>
      cases h2 : decodeAttempt
          (content ++ List.replicate ((4 - content.length % 4) % 4) '=') with
      | some t => rfl
      | none => rfl
  · rw [if_neg hg, if_neg hg]

/-- C5 counterexample: `vmess://c2VydmVyIjoiaCIscG9ydCI6ODA!` has an opaque
payload of length 28 (a multiple of 4) containing one non-alphabet character,
so its 27 data characters are not decodable as-is — padding "to a multiple of
4" adds nothing and the decode fails, which under the claim means the generic
fallback identity. The code instead appends four `'='`, under which the
tolerant decoder succeeds, the pattern matches, and the identity is
`vmess:h:80`. -/
theorem vmess_identity_padding_counterexample :
    extractNodeIdentifier "vmess://c2VydmVyIjoiaCIscG9ydCI6ODA!".data
        = "vmess:h:80".data
      ∧ specVmessOriginalC5 "vmess://c2VydmVyIjoiaCIscG9ydCI6ODA!".data
        = "vmess:c2VydmVyIjoiaCIscG9ydCI6ODA!".data
      ∧ extractNodeIdentifier "vmess://c2VydmVyIjoiaCIscG9ydCI6ODA!".data
        ≠ specVmessOriginalC5 "vmess://c2VydmVyIjoiaCIscG9ydCI6ODA!".data := by decide

/-- C5 amended: for every NodeLink beginning with `vmess://`, the identifier
base64-decodes the opaque payload after appending exactly `4 - len % 4` equal
signs (four of them when the length is already a multiple of 4), searches the
decoded text for the server and port fields, and returns
`"vmess:" + server + ":" + port`; if the decode or the pattern match fails it
returns the generic fallback identity instead. -/
theorem vmess_identity_rule (node : List Char)
    (h : listStartsWith "vmess://".data node = true) :
    extractNodeIdentifier node = specVmessAmendedC5 node := by
  unfold extractNodeIdentifier vmessRule vmessPad specVmessAmendedC5
  rw [if_pos h]
  cases hd : pyB64decode (splitPartOne "://".data node
      ++ List.replicate (4 - (splitPartOne "://".data node).length % 4) '=') with
  | none => rfl
  | some bytes =>
    show (Option.map (fun pr => "vmess:".data ++ pr.1 ++ ':' :: pr.2)
          (vmessSearch (utf8DecodeIgnore bytes))).getD (genericIdentifier node)
        = match vmessSearch (utf8DecodeIgnore bytes) with
          | some (srv, prt) => "vmess:".data ++ srv ++ ':' :: prt
          | none => genericIdentifier node
    cases vmessSearch (utf8DecodeIgnore bytes) with
    | none => rfl
    | some pr => rfl

/-- C5 witness: the amended rule instantiated on a concrete well-formed vmess
link (base64 of a JSON fragment with server and port fields). -/
theorem vmess_identity_rule_witness :
    listStartsWith "vmess://".data
        "vmess://eyJzZXJ2ZXIiOiJzLmV4IiwicG9ydCI6NDQzfQ==".data = true
      ∧ extractNodeIdentifier "vmess://eyJzZXJ2ZXIiOiJzLmV4IiwicG9ydCI6NDQzfQ==".data
        = specVmessAmendedC5 "vmess://eyJzZXJ2ZXIiOiJzLmV4IiwicG9ydCI6NDQzfQ==".data :=
  ⟨by decide, vmess_identity_rule _ (by decide)⟩

theorem listStartsWith_append_split (p1 p2 s : List Char)
    (h : listStartsWith (p1 ++ p2) s = true) :
    listStartsWith p1 s = true ∧ listStartsWith p2 (s.drop p1.length) = true := by
  induction p1 generalizing s with
  | nil => exact ⟨rfl, h⟩
  | cons a p1' ih =>
    cases s with
    | nil => exact absurd h (by simp [listStartsWith])
    | cons c cs =>
      simp only [List.cons_append, listStartsWith, Bool.and_eq_true] at h
      rcases h with ⟨hac, hrest⟩
      rcases ih cs hrest with ⟨hh, hd⟩
      exact ⟨by simp [listStartsWith, hac, hh], hd⟩

theorem findSubstrPos_of_drop (pat s : List Char) (k : Nat)
    (h : listStartsWith pat (s.drop k) = true) :
    ∃ p, findSubstrPos pat s = some p ∧ p ≤ k := by
  induction s generalizing k with
  | nil =>
    refine ⟨0, ?_, Nat.zero_le k⟩
    have h0 : listStartsWith pat [] = true := by
      simpa [List.drop_nil] using h
    simp [findSubstrPos, h0]
  | cons c t ih =>
    by_cases hs : listStartsWith pat (c :: t) = true
    · exact ⟨0, by simp [findSubstrPos, hs], Nat.zero_le k⟩
    · cases k with
      | zero => exact absurd h hs
      | succ k' =>
        rcases ih k' (by simpa using h) with ⟨p, hp, hle⟩
        refine ⟨p + 1, ?_, Nat.succ_le_succ hle⟩
        simp [findSubstrPos, hs, hp]

theorem findSubstrPos_zero_starts (pat s : List Char)
    (h : findSubstrPos pat s = some 0) : listStartsWith pat s = true := by
  cases s with
  | nil =>
    by_cases h0 : listStartsWith pat [] = true
    · exact h0
    · simp [findSubstrPos, h0] at h
  | cons c t =>
    by_cases h0 : listStartsWith pat (c :: t) = true
    · exact h0
    · simp only [findSubstrPos, h0, if_false, Bool.false_eq_true] at h
      cases hf : findSubstrPos pat t with
      | none => rw [hf] at h; simp at h
      | some q => rw [hf] at h; simp at h

theorem matches_find_sep (node : List Char) (hm : matchesNodePattern node = true) :
    ∃ p, findSubstrPos "://".data node = some p ∧ 0 < p := by
  rcases List.any_eq_true.1 hm with ⟨sch, hsch, hstart⟩
  rcases listStartsWith_append_split sch "://".data node hstart with ⟨_, hdrop⟩
  rcases findSubstrPos_of_drop "://".data node sch.length hdrop with ⟨p, hp, _⟩
  refine ⟨p, hp, ?_⟩
  rcases Nat.eq_zero_or_pos p with h0 | h0
  · subst h0
    have hcol := findSubstrPos_zero_starts _ _ hp
    have hschne : sch.head? ≠ some ':' ∧ sch ≠ [] := by
      have : ∀ x ∈ nodeSchemes, x.head? ≠ some ':' ∧ x ≠ [] := by decide
      exact this sch hsch
    cases sch with
    | nil => exact absurd rfl hschne.2
    | cons a sch' =>
      cases node with
      | nil => simp [listStartsWith] at hcol
      | cons c cs =>
        simp only [List.cons_append, listStartsWith, Bool.and_eq_true, beq_iff_eq] at hstart hcol
        have ha : a = ':' := by
          rw [hstart.1, ← hcol.1]
        exact absurd (by rw [List.head?_cons, ha]) hschne.1
  · exact h0

theorem takeWhile_takeWhile_and (p q : Char → Bool) (l : List Char) :
    (l.takeWhile q).takeWhile p = l.takeWhile (fun a => q a && p a) := by
  induction l with
  | nil => rfl
  | cons c t ih =>
    by_cases hq : q c = true
    · by_cases hp : p c = true
      · simp [List.takeWhile_cons, hq, hp, ih]
      · simp [List.takeWhile_cons, hq, hp]
    · simp [List.takeWhile_cons, hq]

theorem truncPayload_eq_takeWhile (s : List Char) :
    truncPayload s = s.takeWhile (fun c => c ≠ '#' && c ≠ '?' && c ≠ '/') := by
  unfold truncPayload takeUntilChar
  rw [takeWhile_takeWhile_and, takeWhile_takeWhile_and]
  congr 1
  funext a
  rw [Bool.and_assoc]

theorem genericIdentifier_eq_spec (node : List Char)
    (hm : matchesNodePattern node = true) :
    genericIdentifier node = specGenericIdentityC6 node := by
  rcases matches_find_sep node hm with ⟨p, hp, hpos⟩
  unfold genericIdentifier specGenericIdentityC6
  rw [hp]
  show (if 0 < p then node.take p ++ ':' :: (truncPayload (node.drop (p + 3))).take 100
        else node.take 200)
      = node.take p ++ ':'
          :: ((node.drop (p + 3)).takeWhile (fun c => c ≠ '#' && c ≠ '?' && c ≠ '/')).take 100
  rw [if_pos hpos, truncPayload_eq_takeWhile]

theorem not_scheme_no_sep (pre node : List Char)
    (hnone : findSubstrPos "://".data node = none) :
    ¬ listStartsWith (pre ++ "://".data) node = true := by
  intro hstart
  rcases listStartsWith_append_split pre "://".data node hstart with ⟨_, hdrop⟩
  rcases findSubstrPos_of_drop "://".data node pre.length hdrop with ⟨p, hp, _⟩
  rw [hp] at hnone
  exact Option.noConfusion hnone

/-- C6: for every NodeLink of a recognized scheme on which none of the vmess,
vless and trojan specific rules succeeds, the identifier is the scheme name, a
colon, and the first 100 characters of the opaque payload truncated at the
earliest `'#'`, `'?'` or `'/'`. The absolute `node[:200]` fallback of the
claim is attached to the bare `except` branch, which is unreachable (no
statement of the body can raise on a `str`, see `genericIdentifier`), so the
claim's raising clause holds vacuously; the second conjunct proves the
realizable `node[:200]` fallback of the same return statement, taken when the
link has no `://` at all. -/
theorem generic_identity_fallback (node : List Char)
    (hm : matchesNodePattern node = true)
    (h1 : listStartsWith "vmess://".data node = true → vmessRule node = none)
    (h2 : listStartsWith "vless://".data node = true → vlessRule node = none)
    (h3 : listStartsWith "trojan://".data node = true → trojanRule node = none) :
    extractNodeIdentifier node = specGenericIdentityC6 node
      ∧ ∀ m, findSubstrPos "://".data m = none → extractNodeIdentifier m = m.take 200 := by
  constructor
  · have hgen := genericIdentifier_eq_spec node hm
    unfold extractNodeIdentifier
    by_cases hv : listStartsWith "vmess://".data node = true
    · rw [if_pos hv, h1 hv]
      exact hgen
    · rw [if_neg hv]
      by_cases hl : listStartsWith "vless://".data node = true
      · rw [if_pos hl, h2 hl]
        exact hgen
      · rw [if_neg hl]
        by_cases ht : listStartsWith "trojan://".data node = true
        · rw [if_pos ht, h3 ht]
          exact hgen
        · rw [if_neg ht]
          exact hgen
  · intro m hnone
    have hg : genericIdentifier m = m.take 200 := by
      unfold genericIdentifier
      rw [hnone]
    have hv : ¬ listStartsWith "vmess://".data m = true := fun hs =>
      not_scheme_no_sep "vmess".data m hnone
        (by rw [show ("vmess".data ++ "://".data) = "vmess://".data by decide]; exact hs)
    have hl : ¬ listStartsWith "vless://".data m = true := fun hs =>
      not_scheme_no_sep "vless".data m hnone
        (by rw [show ("vless".data ++ "://".data) = "vless://".data by decide]; exact hs)
    have ht : ¬ listStartsWith "trojan://".data m = true := fun hs =>
      not_scheme_no_sep "trojan".data m hnone
        (by rw [show ("trojan".data ++ "://".data) = "trojan://".data by decide]; exact hs)
    unfold extractNodeIdentifier
    rw [if_neg hv, if_neg hl, if_neg ht]
    exact hg

/-- C6 witness: a concrete recognized-scheme link outside the three special
rules gets the truncated generic identity, and a concrete string without
`://` gets the first 200 characters. -/
theorem generic_identity_fallback_witness :
    extractNodeIdentifier "ss://host:8388?plugin#frag".data
        = specGenericIdentityC6 "ss://host:8388?plugin#frag".data
      ∧ extractNodeIdentifier "noscheme".data = "noscheme".data.take 200 := by
  have h := generic_identity_fallback "ss://host:8388?plugin#frag".data
    (by decide) (by decide) (by decide) (by decide)
  exact ⟨h.1, h.2 "noscheme".data (by decide)⟩

theorem pySplitChar_ne_nil (sep : Char) (s : List Char) : pySplitChar sep s ≠ [] := by
  cases s with
  | nil => simp [pySplitChar]
  | cons c t =>
    by_cases h : c = sep
    · simp [pySplitChar, h]
    · simp only [pySplitChar, if_neg h]
      cases pySplitChar sep t with
      | nil => simp
      | cons hpiece r => simp

theorem mem_of_mem_pySplitChar (sep : Char) (s l : List Char) (x : Char)
    (hl : l ∈ pySplitChar sep s) (hx : x ∈ l) : x ∈ s := by
  induction s generalizing l with
  | nil =>
    simp only [pySplitChar, List.mem_singleton] at hl
    subst hl
    exact absurd hx (List.not_mem_nil x)
  | cons c t ih =>
    by_cases h : c = sep
    · rw [pySplitChar, if_pos h] at hl
      rcases List.mem_cons.1 hl with h1 | h1
      · subst h1
        exact absurd hx (List.not_mem_nil x)
      · exact List.mem_cons_of_mem _ (ih l h1 hx)
    · rw [pySplitChar, if_neg h] at hl
      cases hsp : pySplitChar sep t with
      | nil => exact absurd hsp (pySplitChar_ne_nil sep t)
      | cons hd r =>
        rw [hsp] at hl
        rcases List.mem_cons.1 hl with h1 | h1
        · subst h1
          rcases List.mem_cons.1 hx with h2 | h2
          · exact h2 ▸ List.mem_cons_self _ _
          · exact List.mem_cons_of_mem _ (ih hd (hsp ▸ List.mem_cons_self _ _) h2)
        · exact List.mem_cons_of_mem _ (ih l (hsp ▸ List.mem_cons_of_mem _ h1) hx)

theorem sep_not_mem_pySplitChar (sep : Char) (s l : List Char)
    (hl : l ∈ pySplitChar sep s) : sep ∉ l := by
  induction s generalizing l with
  | nil =>
    simp only [pySplitChar, List.mem_singleton] at hl
    subst hl
    exact List.not_mem_nil sep
  | cons c t ih =>
    by_cases h : c = sep
    · rw [pySplitChar, if_pos h] at hl
      rcases List.mem_cons.1 hl with h1 | h1
      · subst h1
        exact List.not_mem_nil sep
      · exact ih l h1
    · rw [pySplitChar, if_neg h] at hl
      cases hsp : pySplitChar sep t with
      | nil => exact absurd hsp (pySplitChar_ne_nil sep t)
      | cons hd r =>
        rw [hsp] at hl
        rcases List.mem_cons.1 hl with h1 | h1
        · subst h1
          intro hmem
          rcases List.mem_cons.1 hmem with h2 | h2
          · exact h (h2.symm)
          · exact ih hd (hsp ▸ List.mem_cons_self _ _) h2
        · exact ih l (hsp ▸ List.mem_cons_of_mem _ h1)

theorem mem_of_mem_pyStrip (l : List Char) (x : Char) (hx : x ∈ pyStrip l) : x ∈ l := by
  unfold pyStrip at hx
  rw [List.mem_reverse] at hx
  have h1 := (List.dropWhile_sublist pyIsSpace (l := (l.dropWhile pyIsSpace).reverse)).mem hx
  rw [List.mem_reverse] at h1
  exact (List.dropWhile_sublist pyIsSpace (l := l)).mem h1

theorem mem_of_listStartsWith (pat s : List Char) (h : listStartsWith pat s = true)
    (x : Char) (hx : x ∈ pat) : x ∈ s := by
  induction pat generalizing s with
  | nil => exact absurd hx (List.not_mem_nil x)
  | cons p ps ih =>
    cases s with
    | nil => exact absurd h (by simp [listStartsWith])
    | cons c cs =>
      simp only [listStartsWith, Bool.and_eq_true, beq_iff_eq] at h
      rcases List.mem_cons.1 hx with h1 | h1
      · exact List.mem_cons.2 (Or.inl (h1.trans h.1))
      · exact List.mem_cons_of_mem _ (ih cs h.2 h1)

theorem colon_mem_of_matches (l : List Char) (hm : matchesNodePattern l = true) :
    ':' ∈ l := by
  rcases List.any_eq_true.1 hm with ⟨sch, _, hstart⟩
  exact mem_of_listStartsWith _ _ hstart ':' (List.mem_append_right sch (by decide))

theorem decodeStage_eq_self_of_colon (content : List Char) (hc : ':' ∈ content) :
    decodeStage content = content := by
  have hall : content.all b64GuardChar = false := by
    cases hall : content.all b64GuardChar with
    | false => rfl
    | true => exact absurd (List.all_eq_true.1 hall ':' hc) (by decide)
  have ht : tryDecodeBase64 content = none := by
    unfold tryDecodeBase64
    rw [hall]
    simp
  unfold decodeStage
  rw [ht]


/-- C4: extraction allow-list precision. The first two conjuncts are about the
full `_extract_nodes` (base64 stage included): every output matches the
anchored scheme allow-list, and every non-empty trimmed input line carrying an
allow-listed scheme appears in the output (such a line forces a `':'` into the
content, so the base64 guard rejects the content and the text reaches the line
loop unchanged). The last two conjuncts state the §4.3 line-extraction stage
on its text: its output is exactly the non-empty trimmed lines matching the
allow-list pattern, as a sublist of the stripped lines — in file order. -/
theorem extract_allowlist_exact (content : List Char) :
    (∀ n ∈ extractNodes content, matchesNodePattern n = true)
      ∧ (∀ line ∈ pySplitChar '\n' content, pyStrip line ≠ [] →
          matchesNodePattern (pyStrip line) = true →
          pyStrip line ∈ extractNodes content)
      ∧ (∀ t l, l ∈ extractLines t ↔
          (l ∈ (pySplitChar '\n' t).map pyStrip
            ∧ l ≠ [] ∧ matchesNodePattern l = true))
      ∧ ∀ t, List.Sublist (extractLines t) ((pySplitChar '\n' t).map pyStrip) := by
  have hchar : ∀ t l, l ∈ extractLines t ↔
      (l ∈ (pySplitChar '\n' t).map pyStrip ∧ l ≠ [] ∧ matchesNodePattern l = true) := by
    intro t l
    unfold extractLines
    rw [List.mem_filter]
    simp [List.isEmpty_iff]
  refine ⟨?_, ?_, hchar, ?_⟩
  · intro n hn
    exact ((hchar (decodeStage content) n).1 hn).2.2
  · intro line hline hne hm
    have hcolon : ':' ∈ content :=
      mem_of_mem_pySplitChar '\n' content line ':' hline
        (mem_of_mem_pyStrip line ':' (colon_mem_of_matches _ hm))
    have hds : decodeStage content = content := decodeStage_eq_self_of_colon content hcolon
    show pyStrip line ∈ extractLines (decodeStage content)
    rw [hds]
    exact (hchar content (pyStrip line)).2
      ⟨List.mem_map_of_mem pyStrip hline, hne, hm⟩
  · intro t
    exact List.filter_sublist _

/-- C4 witness: on a concrete mixed text, the comment line is dropped and the
scheme lines survive; the completeness conjunct is instantiated on the
whitespace-padded trojan line. -/
theorem extract_allowlist_exact_witness :
    pyStrip " trojan://u@h:1 ".data
      ∈ extractNodes "ss://a\n# comment\n trojan://u@h:1 ".data :=
  (extract_allowlist_exact "ss://a\n# comment\n trojan://u@h:1 ".data).2.1
    " trojan://u@h:1 ".data (by decide) (by decide) (by decide)

theorem utf8DecodeOne_enc1 (c : Char) (extra : List Nat) (h : c.toNat < 0x80) :
    utf8DecodeOne c.toNat extra = some (c, 0) := by
  unfold utf8DecodeOne
  rw [if_pos h, Char.ofNat_toNat]

theorem utf8DecodeOne_enc2 (c : Char) (extra : List Nat) (h1 : 0x80 ≤ c.toNat)
    (h2 : c.toNat < 0x800) :
    utf8DecodeOne (0xc0 + c.toNat / 64) ((0x80 + c.toNat % 64) :: extra) = some (c, 1) := by
  unfold utf8DecodeOne
  rw [if_neg (by omega), if_pos (by constructor <;> omega)]
  simp only []
  rw [if_pos (by
    simp only [isContByte, Bool.and_eq_true, decide_eq_true_eq]
    constructor <;> omega)]
  rw [show (0xc0 + c.toNat / 64 - 0xc0) * 64 + (0x80 + c.toNat % 64 - 0x80) = c.toNat by
    omega, Char.ofNat_toNat]

theorem utf8DecodeOne_enc3 (c : Char) (extra : List Nat) (h2 : 0x800 ≤ c.toNat)
    (h3 : c.toNat < 0x10000)
    (hval : c.toNat < 55296 ∨ (57343 < c.toNat ∧ c.toNat < 1114112)) :
    utf8DecodeOne (0xe0 + c.toNat / 4096)
      ((0x80 + c.toNat / 64 % 64) :: (0x80 + c.toNat % 64) :: extra) = some (c, 2) := by
  unfold utf8DecodeOne
  rw [if_neg (by omega), if_neg (by intro hc; omega), if_pos (by constructor <;> omega)]
  simp only []
  split_ifs with g
  · rw [show (0xe0 + c.toNat / 4096 - 0xe0) * 4096 + (0x80 + c.toNat / 64 % 64 - 0x80) * 64
        + (0x80 + c.toNat % 64 - 0x80) = c.toNat by omega, Char.ofNat_toNat]
  · exfalso
    apply g
    simp only [isContByte, Bool.and_eq_true, Bool.not_eq_true', Bool.and_eq_false_iff,
      decide_eq_true_eq, decide_eq_false_iff_not]
    omega

theorem utf8DecodeOne_enc4 (c : Char) (extra : List Nat) (h3 : 0x10000 ≤ c.toNat)
    (hval : c.toNat < 1114112) :
    utf8DecodeOne (0xf0 + c.toNat / 262144)
      ((0x80 + c.toNat / 4096 % 64) :: (0x80 + c.toNat / 64 % 64)
        :: (0x80 + c.toNat % 64) :: extra) = some (c, 3) := by
  unfold utf8DecodeOne
  rw [if_neg (by omega), if_neg (by intro hc; omega), if_neg (by intro hc; omega),
    if_pos (by constructor <;> omega)]
  simp only []
  split_ifs with g
  · rw [show (0xf0 + c.toNat / 262144 - 0xf0) * 262144 + (0x80 + c.toNat / 4096 % 64 - 0x80) * 4096
        + (0x80 + c.toNat / 64 % 64 - 0x80) * 64 + (0x80 + c.toNat % 64 - 0x80) = c.toNat by
      omega, Char.ofNat_toNat]
  · exfalso
    apply g
    simp only [isContByte, Bool.and_eq_true, decide_eq_true_eq]
    omega

theorem utf8Encode_cons (c : Char) (s : List Char) :
    utf8Encode (c :: s) = utf8EncodeChar c ++ utf8Encode s := by
  simp [utf8Encode]

theorem utf8Go_enc (s : List Char) :
    ∀ fuel, (utf8Encode s).length ≤ fuel →
      utf8DecodeStrictGo (utf8Encode s) fuel = some s := by
  induction s with
  | nil =>
    intro fuel h
    rw [show utf8Encode [] = [] from rfl]
    cases fuel <;> rfl
  | cons c s' ih =>
    intro fuel h
    have hval : c.toNat < 55296 ∨ (57343 < c.toNat ∧ c.toNat < 1114112) := by
      show c.val.toNat < 55296 ∨ (57343 < c.val.toNat ∧ c.val.toNat < 1114112)
      rcases c.valid with hv | hv
      · exact Or.inl hv
      · exact Or.inr hv
    rw [utf8Encode_cons] at h ⊢
    unfold utf8EncodeChar at h ⊢
    by_cases h1 : c.toNat < 0x80
    · rw [if_pos h1] at h ⊢
      simp only [List.cons_append, List.nil_append] at h ⊢
      cases fuel with
      | zero => simp at h
      | succ f =>
        rw [utf8DecodeStrictGo]
        rw [utf8DecodeOne_enc1 c _ h1]
        simp only [List.drop_zero]
        rw [ih f (by simp at h; omega)]
        rfl
    · rw [if_neg h1] at h ⊢
      by_cases h2 : c.toNat < 0x800
      · rw [if_pos h2] at h ⊢
        simp only [List.cons_append, List.nil_append] at h ⊢
        cases fuel with
        | zero => simp at h
        | succ f =>
          rw [utf8DecodeStrictGo]
          rw [utf8DecodeOne_enc2 c _ (by omega) h2]
          simp only [List.drop_succ_cons, List.drop_zero]
          rw [ih f (by simp at h; omega)]
          rfl
      · rw [if_neg h2] at h ⊢
        by_cases h3 : c.toNat < 0x10000
        · rw [if_pos h3] at h ⊢
          simp only [List.cons_append, List.nil_append] at h ⊢
          cases fuel with
          | zero => simp at h
          | succ f =>
            rw [utf8DecodeStrictGo]
            rw [utf8DecodeOne_enc3 c _ (by omega) h3 hval]
            simp only [List.drop_succ_cons, List.drop_zero]
            rw [ih f (by simp at h; omega)]
            rfl
        · rw [if_neg h3] at h ⊢
          simp only [List.cons_append, List.nil_append] at h ⊢
          cases fuel with
          | zero => simp at h
          | succ f =>
            rw [utf8DecodeStrictGo]
            rw [utf8DecodeOne_enc4 c _ (by omega) (by omega)]
            simp only [List.drop_succ_cons, List.drop_zero]
            rw [ih f (by simp at h; omega)]
            rfl

theorem utf8_roundtrip (s : List Char) : utf8DecodeStrict (utf8Encode s) = some s :=
  utf8Go_enc s (utf8Encode s).length (Nat.le_refl _)

theorem b64CharVal_valChar_fin : ∀ v : Fin 64, b64CharVal (b64ValChar v.val) = some v.val := by
  decide

theorem b64ValChar_ne_pad_fin : ∀ v : Fin 64, ¬ b64ValChar v.val = '=' := by decide

theorem b64ValChar_ascii_fin : ∀ v : Fin 64, (b64ValChar v.val).toNat < 128 := by decide

theorem b64CharVal_valChar (v : Nat) (h : v < 64) : b64CharVal (b64ValChar v) = some v :=
  b64CharVal_valChar_fin ⟨v, h⟩

theorem b64ValChar_ne_pad (v : Nat) (h : v < 64) : ¬ b64ValChar v = '=' :=
  b64ValChar_ne_pad_fin ⟨v, h⟩

theorem b64ValChar_ascii (v : Nat) (h : v < 64) : (b64ValChar v).toNat < 128 :=
  b64ValChar_ascii_fin ⟨v, h⟩

theorem pyA2b_enc_chunk (w x y : Nat) (hw : w < 256) (hx : x < 256) (hy : y < 256)
    (L : List Char) :
    pyA2bBase64 (b64ValChar (w / 4) :: b64ValChar (w % 4 * 16 + x / 16) ::
        b64ValChar (x % 16 * 4 + y / 64) :: b64ValChar (y % 64) :: L) 0 0 0
      = (pyA2bBase64 L 0 0 0).map (fun bs => w :: x :: y :: bs) := by
  rw [pyA2bBase64, if_neg (b64ValChar_ne_pad _ (by omega)), b64CharVal_valChar _ (by omega)]
  simp only []
  rw [pyA2bBase64, if_neg (b64ValChar_ne_pad _ (by omega)), b64CharVal_valChar _ (by omega)]
  simp only []
  rw [pyA2bBase64, if_neg (b64ValChar_ne_pad _ (by omega)), b64CharVal_valChar _ (by omega)]
  simp only []
  rw [pyA2bBase64, if_neg (b64ValChar_ne_pad _ (by omega)), b64CharVal_valChar _ (by omega)]
  simp only []
  cases hL : pyA2bBase64 L 0 0 0 with
  | none => simp
  | some bs =>
    simp only [Option.map_some']
    rw [show w / 4 * 4 + (w % 4 * 16 + x / 16) / 16 = w by omega,
      show (w % 4 * 16 + x / 16) % 16 * 16 + (x % 16 * 4 + y / 64) / 4 = x by omega,
      show (x % 16 * 4 + y / 64) % 4 * 64 + y % 64 = y by omega]

theorem pyA2b_enc_tail1 (a : Nat) (ha : a < 256) :
    pyA2bBase64 [b64ValChar (a / 4), b64ValChar (a % 4 * 16), '=', '='] 0 0 0 = some [a] := by
  rw [pyA2bBase64, if_neg (b64ValChar_ne_pad _ (by omega)), b64CharVal_valChar _ (by omega)]
  simp only []
  rw [pyA2bBase64, if_neg (b64ValChar_ne_pad _ (by omega)), b64CharVal_valChar _ (by omega)]
  simp only []
  rw [show (a % 4 * 16) % 16 = 0 by omega]
  rw [show pyA2bBase64 ['=', '='] 2 0 0 = some [] from rfl]
  simp only [Option.map_some']
  rw [show a / 4 * 4 + a % 4 * 16 / 16 = a by omega]

theorem pyA2b_enc_tail2 (a b : Nat) (ha : a < 256) (hb : b < 256) :
    pyA2bBase64 [b64ValChar (a / 4), b64ValChar (a % 4 * 16 + b / 16),
      b64ValChar (b % 16 * 4), '='] 0 0 0 = some [a, b] := by
  rw [pyA2bBase64, if_neg (b64ValChar_ne_pad _ (by omega)), b64CharVal_valChar _ (by omega)]
  simp only []
  rw [pyA2bBase64, if_neg (b64ValChar_ne_pad _ (by omega)), b64CharVal_valChar _ (by omega)]
  simp only []
  rw [pyA2bBase64, if_neg (b64ValChar_ne_pad _ (by omega)), b64CharVal_valChar _ (by omega)]
  simp only []
  rw [show (b % 16 * 4) % 4 = 0 by omega]
  rw [show pyA2bBase64 ['='] 3 0 0 = some [] from rfl]
  simp only [Option.map_some']
  rw [show a / 4 * 4 + (a % 4 * 16 + b / 16) / 16 = a by omega,
    show (a % 4 * 16 + b / 16) % 16 * 16 + b % 16 * 4 / 4 = b by omega]

theorem pyA2b_encode : ∀ (bs : List Nat), (∀ b ∈ bs, b < 256) →
    pyA2bBase64 (b64encodeBytes bs) 0 0 0 = some bs
  | [], _ => rfl
  | [a], h => pyA2b_enc_tail1 a (h a (by simp))
  | [a, b], h => pyA2b_enc_tail2 a b (h a (by simp)) (h b (by simp))
  | a :: b :: c :: rest, h => by
    show pyA2bBase64 (b64ValChar (a / 4) :: b64ValChar (a % 4 * 16 + b / 16) ::
        b64ValChar (b % 16 * 4 + c / 64) :: b64ValChar (c % 64) :: b64encodeBytes rest)
        0 0 0 = some (a :: b :: c :: rest)
    rw [pyA2b_enc_chunk a b c (h a (by simp)) (h b (by simp)) (h c (by simp))]
    rw [pyA2b_encode rest (fun z hz => h z (by simp [hz]))]
    rfl

theorem b64encode_ascii : ∀ (bs : List Nat), (∀ b ∈ bs, b < 256) →
    (b64encodeBytes bs).all (fun c => c.toNat < 128) = true
  | [], _ => rfl
  | [a], h => by
    have h1 := b64ValChar_ascii (a / 4) (by have := h a (by simp); omega)
    have h2 := b64ValChar_ascii (a % 4 * 16) (by have := h a (by simp); omega)
    simp [b64encodeBytes, List.all_cons, h1, h2]
  | [a, b], h => by
    have ha := h a (by simp)
    have hb := h b (by simp)
    have h1 := b64ValChar_ascii (a / 4) (by omega)
    have h2 := b64ValChar_ascii (a % 4 * 16 + b / 16) (by omega)
    have h3 := b64ValChar_ascii (b % 16 * 4) (by omega)
    simp [b64encodeBytes, List.all_cons, h1, h2, h3]
  | a :: b :: c :: rest, h => by
    have ha := h a (by simp)
    have hb := h b (by simp)
    have hc := h c (by simp)
    have h1 := b64ValChar_ascii (a / 4) (by omega)
    have h2 := b64ValChar_ascii (a % 4 * 16 + b / 16) (by omega)
    have h3 := b64ValChar_ascii (b % 16 * 4 + c / 64) (by omega)
    have h4 := b64ValChar_ascii (c % 64) (by omega)
    have hr := b64encode_ascii rest (fun z hz => h z (by simp [hz]))
    show ((b64ValChar (a / 4) :: b64ValChar (a % 4 * 16 + b / 16) ::
        b64ValChar (b % 16 * 4 + c / 64) :: b64ValChar (c % 64) :: b64encodeBytes rest).all
        (fun c => c.toNat < 128)) = true
    simp [List.all_cons, h1, h2, h3, h4, hr]

theorem pyB64decode_encode (bs : List Nat) (h : ∀ b ∈ bs, b < 256) :
    pyB64decode (b64encodeBytes bs) = some bs := by
  unfold pyB64decode
  rw [if_pos (b64encode_ascii bs h)]
  exact pyA2b_encode bs h

theorem utf8EncodeChar_lt (c : Char) : ∀ b ∈ utf8EncodeChar c, b < 256 := by
  have hn : c.toNat < 1114112 := by
    show c.val.toNat < 1114112
    rcases c.valid with h | h
    · have h2 : c.val.toNat < 55296 := h
      omega
    · exact h.2
  intro b hb
  unfold utf8EncodeChar at hb
  split_ifs at hb <;>
    simp only [List.mem_cons, List.mem_singleton, List.not_mem_nil, or_false] at hb <;>
    omega

theorem utf8Encode_lt (s : List Char) : ∀ b ∈ utf8Encode s, b < 256 := by
  intro b hb
  unfold utf8Encode at hb
  rw [List.mem_flatten] at hb
  rcases hb with ⟨l, hl, hbl⟩
  rw [List.mem_map] at hl
  rcases hl with ⟨c, _, rfl⟩
  exact utf8EncodeChar_lt c b hbl

theorem pySplitChar_no_sep (sep : Char) (x : List Char) (hx : sep ∉ x) :
    pySplitChar sep x = [x] := by
  induction x with
  | nil => rfl
  | cons c t ih =>
    have hc : ¬ c = sep := fun hc => hx (hc ▸ List.mem_cons_self c t)
    rw [pySplitChar, if_neg hc, ih (fun hm => hx (List.mem_cons_of_mem c hm))]

theorem pySplitChar_append (sep : Char) (x r : List Char) (hx : sep ∉ x) :
    pySplitChar sep (x ++ sep :: r) = x :: pySplitChar sep r := by
  induction x with
  | nil => simp [pySplitChar]
  | cons c t ih =>
    have hc : ¬ c = sep := fun hc => hx (hc ▸ List.mem_cons_self c t)
    rw [List.cons_append, pySplitChar, if_neg hc, ih (fun hm => hx (List.mem_cons_of_mem c hm))]

theorem split_joinSep (sep : Char) (nodes : List (List Char)) (hne : nodes ≠ [])
    (hn : ∀ n ∈ nodes, sep ∉ n) : pySplitChar sep (joinSep sep nodes) = nodes := by
  induction nodes with
  | nil => exact absurd rfl hne
  | cons x rest ih =>
    cases rest with
    | nil => exact pySplitChar_no_sep sep x (hn x (List.mem_cons_self x []))
    | cons y t =>
      rw [joinSep, pySplitChar_append sep x _ (hn x (List.mem_cons_self x (y :: t)))]
      rw [ih (by simp) (fun n hn' => hn n (List.mem_cons_of_mem x hn'))]

theorem extractNodes_no_newline (content : List Char) :
    ∀ n ∈ extractNodes content, '\n' ∉ n := by
  intro n hn
  unfold extractNodes extractLines at hn
  have hn' := List.mem_of_mem_filter hn
  rw [List.mem_map] at hn'
  rcases hn' with ⟨line, hline, rfl⟩
  intro hmem
  exact sep_not_mem_pySplitChar '\n' _ line hline (mem_of_mem_pyStrip line '\n' hmem)

theorem aggregate_extract_no_newline (contents : List (List Char)) :
    ∀ n ∈ (aggregateBatches (contents.map extractNodes) []).1, '\n' ∉ n := by
  intro n hn
  rw [aggregateBatches_fst] at hn
  have h2 := mem_firstOcc _ _ _ _ hn
  rw [List.mem_flatten] at h2
  rcases h2 with ⟨batch, hbatch, hnb⟩
  rw [List.mem_map] at hbatch
  rcases hbatch with ⟨content, _, rfl⟩
  exact extractNodes_no_newline content n hnb

/-- C7: for every run of the pipeline whose aggregated deduplicated node list
is non-empty, the subscription artifact is the standard padded base64 encoding
of the newline-joined links, and decoding it back — base64, then UTF-8, then
splitting on newlines — reproduces exactly the deduplicated NodeLink
sequence. -/
theorem subscription_roundtrip (contents : List (List Char)) (nodes : List (List Char))
    (hdef : nodes = (aggregateBatches (contents.map extractNodes) []).1)
    (hne : nodes ≠ []) :
    generateSubscriptionFile nodes = some (subscriptionArtifact nodes)
      ∧ pyB64decode (subscriptionArtifact nodes) = some (utf8Encode (joinSep '\n' nodes))
      ∧ utf8DecodeStrict (utf8Encode (joinSep '\n' nodes)) = some (joinSep '\n' nodes)
      ∧ pySplitChar '\n' (joinSep '\n' nodes) = nodes := by
  refine ⟨?_, ?_, ?_, ?_⟩
  · unfold generateSubscriptionFile
    rw [if_neg (by simp [List.isEmpty_iff, hne])]
  · unfold subscriptionArtifact
    exact pyB64decode_encode _ (utf8Encode_lt _)
  · exact utf8_roundtrip _
  · refine split_joinSep '\n' nodes hne (fun n hn => ?_)
    exact aggregate_extract_no_newline contents n (hdef ▸ hn)

/-- C7 witness: one concrete source text with two node lines round-trips. -/
theorem subscription_roundtrip_witness :
    (aggregateBatches ([ "ss://a\nss://b".data ].map extractNodes) []).1 ≠ ([] : List (List Char))
      ∧ pySplitChar '\n'
          (joinSep '\n' ((aggregateBatches ([ "ss://a\nss://b".data ].map extractNodes) []).1))
        = (aggregateBatches ([ "ss://a\nss://b".data ].map extractNodes) []).1 :=
  ⟨by decide, (subscription_roundtrip [ "ss://a\nss://b".data ] _ rfl (by decide)).2.2.2⟩

theorem runSchedule_cons (batches : List (List (List Char))) (i : Nat) (rest : List Nat)
    (cache : List (List Char)) :
    runSchedule batches (i :: rest) cache
      = (i, (filterInvalidNodes (batches.getD i []) cache).1)
          :: runSchedule batches rest (filterInvalidNodes (batches.getD i []) cache).2 := rfl

theorem runSchedule_keys (batches : List (List (List Char))) :
    ∀ (order : List Nat) (cache : List (List Char)),
      (runSchedule batches order cache).map Prod.fst = order := by
  intro order
  induction order with
  | nil => intro cache; rfl
  | cons i rest ih =>
    intro cache
    rw [runSchedule_cons]
    simp only [List.map_cons, ih]

theorem find?_of_mem_nodupKeys (slots : List (Nat × List (List Char)))
    (hnd : (slots.map Prod.fst).Nodup) (e : Nat × List (List Char)) (he : e ∈ slots) :
    slots.find? (fun pr => pr.1 == e.1) = some e := by
  induction slots with
  | nil => exact absurd he (List.not_mem_nil e)
  | cons hd t ih =>
    rw [List.map_cons, List.nodup_cons] at hnd
    rcases List.mem_cons.1 he with h1 | h1
    · subst h1
      simp only [List.find?_cons, beq_self_eq_true]
    · have hne : (hd.1 == e.1) = false := by
        rw [beq_eq_false_iff_ne]
        intro hbeq
        exact hnd.1 (hbeq ▸ List.mem_map_of_mem Prod.fst h1)
      simp only [List.find?_cons, hne]
      exact ih hnd.2 h1

theorem mem_mergeConcurrentModel (batches : List (List (List Char))) (order : List Nat)
    (cache : List (List Char)) (hperm : order.Perm (List.range batches.length))
    (x : List Char) :
    x ∈ mergeConcurrentModel batches order cache
      ↔ ∃ e ∈ runSchedule batches order cache, x ∈ e.2 := by
  have hnd : order.Nodup := hperm.nodup_iff.2 (List.nodup_range _)
  have hkeys : (runSchedule batches order cache).map Prod.fst = order :=
    runSchedule_keys batches order cache
  unfold mergeConcurrentModel
  rw [List.mem_flatten]
  constructor
  · rintro ⟨piece, hpiece, hx⟩
    rw [List.mem_map] at hpiece
    rcases hpiece with ⟨i, _, rfl⟩
    cases hf : (runSchedule batches order cache).find? (fun pr => pr.1 == i) with
    | none =>
      rw [hf] at hx
      exact absurd hx (List.not_mem_nil x)
    | some e =>
      rw [hf] at hx
      exact ⟨e, List.mem_of_find?_eq_some hf, hx⟩
  · rintro ⟨e, he, hx⟩
    have hi : e.1 ∈ List.range batches.length := by
      rw [← hperm.mem_iff, ← hkeys]
      exact List.mem_map_of_mem Prod.fst he
    refine ⟨((((runSchedule batches order cache).find?
        (fun pr => pr.1 == e.1)).map Prod.snd).getD []), List.mem_map_of_mem _ hi, ?_⟩
    rw [find?_of_mem_nodupKeys _ (by rw [hkeys]; exact hnd) e he]
    exact hx

theorem filter_ids_union (b c : List (List Char)) (x : List Char) :
    (x ∈ (filterInvalidNodes b c).1.map extractNodeIdentifier ∨ x ∈ c)
      ↔ (x ∈ b.map extractNodeIdentifier ∨ x ∈ c) := by
  rw [filterInvalidNodes_fst]
  constructor
  · rintro (hx | hx)
    · rw [List.mem_map] at hx
      rcases hx with ⟨n, hn, rfl⟩
      exact Or.inl (List.mem_map_of_mem _ (mem_firstOcc _ _ _ _ hn))
    · exact Or.inr hx
  · rintro (hx | hx)
    · rw [List.mem_map] at hx
      rcases hx with ⟨n, hn, rfl⟩
      rcases firstOcc_complete extractNodeIdentifier c b n hn with h | h
      · exact Or.inr h
      · exact Or.inl h
    · exact Or.inr hx

theorem cache_ids_union (b c : List (List Char)) (x : List Char) :
    x ∈ (filterInvalidNodes b c).2
      ↔ (x ∈ (filterInvalidNodes b c).1.map extractNodeIdentifier ∨ x ∈ c) := by
  rw [filterInvalidNodes_snd]
  simp [List.mem_append, List.mem_reverse]

theorem schedule_ids (batches : List (List (List Char))) :
    ∀ (order : List Nat) (c : List (List Char)) (x : List Char),
      ((∃ e ∈ runSchedule batches order c, x ∈ e.2.map extractNodeIdentifier) ∨ x ∈ c)
        ↔ ((∃ i ∈ order, x ∈ (batches.getD i []).map extractNodeIdentifier) ∨ x ∈ c) := by
  intro order
  induction order with
  | nil =>
    intro c x
    simp [runSchedule]
  | cons i rest ih =>
    intro c x
    rw [runSchedule_cons]
    have h1 := filter_ids_union (batches.getD i []) c x
    have h2 := cache_ids_union (batches.getD i []) c x
    have h3 := ih (filterInvalidNodes (batches.getD i []) c).2 x
    constructor
    · rintro (⟨e, he, hx⟩ | hx)
      · rcases List.mem_cons.1 he with rfl | he2
        · rcases h1.1 (Or.inl hx) with hb | hc
          · exact Or.inl ⟨i, List.mem_cons_self _ _, hb⟩
          · exact Or.inr hc
        · rcases h3.1 (Or.inl ⟨e, he2, hx⟩) with ⟨j, hj, hxj⟩ | hc2
          · exact Or.inl ⟨j, List.mem_cons_of_mem _ hj, hxj⟩
          · rcases h2.1 hc2 with hk | hc
            · rcases h1.1 (Or.inl hk) with hb | hc
              · exact Or.inl ⟨i, List.mem_cons_self _ _, hb⟩
              · exact Or.inr hc
            · exact Or.inr hc
      · exact Or.inr hx
    · rintro (⟨j, hj, hxj⟩ | hx)
      · rcases List.mem_cons.1 hj with rfl | hj2
        · rcases h1.2 (Or.inl hxj) with hk | hc
          · exact Or.inl ⟨(j, (filterInvalidNodes (batches.getD j []) c).1),
              List.mem_cons_self _ _, hk⟩
          · exact Or.inr hc
        · rcases h3.2 (Or.inl ⟨j, hj2, hxj⟩) with ⟨e, he, hx2⟩ | hc2
          · exact Or.inl ⟨e, List.mem_cons_of_mem _ he, hx2⟩
          · rcases h2.1 hc2 with hk | hc
            · exact Or.inl ⟨(i, (filterInvalidNodes (batches.getD i []) c).1),
                List.mem_cons_self _ _, hk⟩
            · exact Or.inr hc
      · exact Or.inr hx

theorem aggregate_ids_iff (batches : List (List (List Char))) (x : List Char) :
    x ∈ (aggregateBatches batches []).1.map extractNodeIdentifier
      ↔ x ∈ batches.flatten.map extractNodeIdentifier := by
  rw [aggregateBatches_fst]
  constructor
  · intro hx
    rw [List.mem_map] at hx
    rcases hx with ⟨n, hn, rfl⟩
    exact List.mem_map_of_mem _ (mem_firstOcc _ _ _ _ hn)
  · intro hx
    rw [List.mem_map] at hx
    rcases hx with ⟨n, hn, rfl⟩
    rcases firstOcc_complete extractNodeIdentifier [] batches.flatten n hn with h | h
    · exact absurd h (List.not_mem_nil _)
    · exact h

theorem flatten_ids_range (batches : List (List (List Char))) (x : List Char) :
    x ∈ batches.flatten.map extractNodeIdentifier
      ↔ ∃ i ∈ List.range batches.length,
          x ∈ (batches.getD i []).map extractNodeIdentifier := by
  constructor
  · intro hx
    rw [List.mem_map] at hx
    rcases hx with ⟨n, hn, rfl⟩
    rw [List.mem_flatten] at hn
    rcases hn with ⟨batch, hbatch, hnb⟩
    rw [List.mem_iff_getElem] at hbatch
    rcases hbatch with ⟨i, hi, rfl⟩
    refine ⟨i, List.mem_range.2 hi, ?_⟩
    rw [List.getD_eq_getElem batches [] hi]
    exact List.mem_map_of_mem _ hnb
  · rintro ⟨i, hi, hx⟩
    rw [List.mem_map] at hx
    rcases hx with ⟨n, hn, rfl⟩
    have hi2 := List.mem_range.1 hi
    rw [List.getD_eq_getElem batches [] hi2] at hn
    refine List.mem_map_of_mem _ ?_
    rw [List.mem_flatten]
    exact ⟨batches[i], List.getElem_mem _, hn⟩

theorem runSchedule_shift (b : List (List Char)) (bs : List (List (List Char))) :
    ∀ (order : List Nat) (c : List (List Char)),
      runSchedule (b :: bs) (order.map (· + 1)) c
        = (runSchedule bs order c).map (fun pr => (pr.1 + 1, pr.2)) := by
  intro order
  induction order with
  | nil => intro c; rfl
  | cons i rest ih =>
    intro c
    simp only [List.map_cons]
    rw [runSchedule_cons, runSchedule_cons]
    rw [List.getD_cons_succ]
    rw [ih]
    rw [List.map_cons]

theorem find?_shift (slots : List (Nat × List (List Char))) (i : Nat) :
    (slots.map (fun pr => (pr.1 + 1, pr.2))).find? (fun pr => pr.1 == i + 1)
      = (slots.find? (fun pr => pr.1 == i)).map (fun pr => (pr.1 + 1, pr.2)) := by
  induction slots with
  | nil => rfl
  | cons hd t ih =>
    simp only [List.map_cons, List.find?_cons]
    have : (hd.1 + 1 == i + 1) = (hd.1 == i) := by
      cases hb : hd.1 == i with
      | true => simp [beq_iff_eq.1 hb]
      | false =>
        rw [beq_eq_false_iff_ne] at hb
        rw [beq_eq_false_iff_ne]
        omega
    rw [this]
    cases hb : hd.1 == i with
    | true => rfl
    | false => exact ih

theorem mergeConcurrent_inputOrder (batches : List (List (List Char))) :
    ∀ c, mergeConcurrentModel batches (List.range batches.length) c
      = (aggregateBatches batches c).1 := by
  induction batches with
  | nil => intro c; rfl
  | cons b bs ih =>
    intro c
    unfold mergeConcurrentModel
    rw [aggregateBatches_cons]
    show ((List.range (b :: bs).length).map _).flatten = _
    rw [List.length_cons, List.range_succ_eq_map, runSchedule_cons, List.getD_cons_zero,
      runSchedule_shift]
    simp only [List.map_cons, List.flatten_cons, List.map_map]
    congr 1
    rw [← ih (filterInvalidNodes b c).2]
    unfold mergeConcurrentModel
    have hpt : ∀ i : Nat,
        ((List.find? (fun pr => pr.1 == i + 1)
            ((0, (filterInvalidNodes b c).1)
              :: (runSchedule bs (List.range bs.length)
                    (filterInvalidNodes b c).2).map (fun pr => (pr.1 + 1, pr.2)))).map
          Prod.snd).getD []
        = ((List.find? (fun pr => pr.1 == i)
            (runSchedule bs (List.range bs.length)
              (filterInvalidNodes b c).2)).map Prod.snd).getD [] := by
      intro i
      simp only [List.find?_cons]
      rw [show ((0 : Nat) == i + 1) = false from rfl]
      simp only []
      rw [find?_shift, Option.map_map]
      rfl
    refine congrArg List.flatten ?_
    refine List.map_eq_map_iff.mpr ?_
    intro i _
    simp only [Function.comp_apply, Nat.succ_eq_add_one]
    exact hpt i

/-- C9 counterexample: two sources with distinct identities and completion
schedule `[1, 0]` (the second source's filter completes first). The claim
predicts the aggregate follows completion order; the code's `executor.map`
collects per-source results in the order of the input iterable, so the result
is in configured input order and differs from the completion-order list. -/
theorem merge_order_counterexample :
    mergeConcurrentModel [["ss://a".data], ["trojan://u@h:9".data]] [1, 0] []
        = ["ss://a".data, "trojan://u@h:9".data]
      ∧ ¬ mergeConcurrentModel [["ss://a".data], ["trojan://u@h:9".data]] [1, 0] []
          = ["trojan://u@h:9".data, "ss://a".data] := by decide

/-- C9 amended: within the concurrent path of `merge_nodes` the aggregate
result lists each source's kept nodes in the configured input order of the
sources, whatever the completion schedule of the worker pool was; the
completion schedule affects only which representative survives when
identities collide, never the set of kept identities, and executing the
schedule in input order coincides with the sequential aggregation. -/
theorem merge_concurrent_order (batches : List (List (List Char))) (order : List Nat)
    (hperm : order.Perm (List.range batches.length)) :
    (∀ x, x ∈ (mergeConcurrentModel batches order []).map extractNodeIdentifier
        ↔ x ∈ (aggregateBatches batches []).1.map extractNodeIdentifier)
      ∧ mergeConcurrentModel batches (List.range batches.length) []
          = (aggregateBatches batches []).1 := by
  constructor
  · intro x
    constructor
    · intro hx
      rw [List.mem_map] at hx
      rcases hx with ⟨n, hn, rfl⟩
      rw [mem_mergeConcurrentModel batches order [] hperm] at hn
      rcases hn with ⟨e, he, hne⟩
      have h1 : (∃ e ∈ runSchedule batches order [],
          extractNodeIdentifier n ∈ e.2.map extractNodeIdentifier)
            ∨ extractNodeIdentifier n ∈ ([] : List (List Char)) :=
        Or.inl ⟨e, he, List.mem_map_of_mem _ hne⟩
      rcases (schedule_ids batches order [] _).1 h1 with ⟨i, hi, hxi⟩ | hfalse
      · rw [aggregate_ids_iff, flatten_ids_range]
        exact ⟨i, hperm.mem_iff.1 hi, hxi⟩
      · exact absurd hfalse (List.not_mem_nil _)
    · intro hx
      rw [aggregate_ids_iff, flatten_ids_range] at hx
      rcases hx with ⟨i, hi, hxi⟩
      have h1 := (schedule_ids batches order [] x).2 (Or.inl ⟨i, hperm.mem_iff.2 hi, hxi⟩)
      rcases h1 with ⟨e, he, hxe⟩ | hfalse
      · rw [List.mem_map] at hxe
        rcases hxe with ⟨n, hn, rfl⟩
        refine List.mem_map_of_mem _ ?_
        rw [mem_mergeConcurrentModel batches order [] hperm]
        exact ⟨e, he, hn⟩
      · exact absurd hfalse (List.not_mem_nil _)
  · exact mergeConcurrent_inputOrder batches []

/-- C9 witness: the amended theorem instantiated on two concrete sources with
the reversed completion schedule. -/
theorem merge_concurrent_order_witness :
    List.Perm [1, 0] (List.range 2)
      ∧ mergeConcurrentModel [["ss://h:1".data], ["vless://q@a:5".data]] (List.range 2) []
        = (aggregateBatches [["ss://h:1".data], ["vless://q@a:5".data]] []).1 :=
  ⟨by decide,
    (merge_concurrent_order [["ss://h:1".data], ["vless://q@a:5".data]] [1, 0] (by decide)).2⟩
